import Mathlib

/-!
# CodeObfs: the junk-arithmetic pass and the string-obfuscation pass

A shallow embedding of `src/AddJunkCode.cpp` (`Junk::runOnModule`) and
`src/StringObfuscation.cpp` (`StringObfuscation::runOnModule`) over a small
model of the LLVM IR objects the two passes read and write.

Modelling conventions.

* Object identity.  LLVM identifies an instruction or a global by its address.
  Here every `Instruction` carries an `id` and every `GlobalVariable` an
  `addr`; an operand that is the result of an instruction is `Value.inst id`
  and an operand that is the address of a global is `Value.global addr`.
  An object created by a pass (`new GlobalVariable`, `builder.Create...`)
  receives the next unused identity, counted up from `Module.freshId`.
* The random source.  `rand()` is a stream `rand : Nat → Nat` of the values it
  returns together with the number of calls made so far.
* Library calls.  Calls into LLVM (`IRBuilder`, `getAsCString`,
  `eraseFromParent`, ...) are modelled by what the library does in a release
  build; in particular `IRBuilder::CreateOr` and `IRBuilder::CreateAnd` return
  their left operand without creating an instruction for `x | 0` and `x & -1`.
* Diagnostics written to `errs()` are not part of the model.
* Machine integers are naturals or integers with explicit truncation.
-/

namespace CodeObfs

/-! ## Data model -/

/-- The IR types that the passes construct or inspect. -/
inductive IRType where
  | int (bits : Nat)
  | array (len : Nat) (elemBits : Nat)
  | vector (len : Nat) (elemBits : Nat)
  | other (tag : Nat)
deriving DecidableEq, Repr

/-- Initializers of globals.  `dataArray` and `dataVector` are the two kinds of
`ConstantDataSequential`; `data` is the raw byte contents
(`getRawDataValues`), which for `i8` elements is the element sequence. -/
inductive Constant where
  | int (bits : Nat) (val : Nat)
  | dataArray (elemBits : Nat) (data : List Nat)
  | dataVector (elemBits : Nat) (data : List Nat)
  | aggregateZero
  | other (tag : Nat)
deriving DecidableEq, Repr

/-- Linkage kinds of a global. -/
inductive Linkage where
  | externalLinkage
  | internalLinkage
  | privateLinkage
  | otherLinkage (tag : Nat)
deriving DecidableEq, Repr

/-- A module-level variable. `addr` stands for the address of the object. -/
structure GlobalVariable where
  addr : Nat
  name : String
  valueType : IRType
  isConstant : Bool
  linkage : Linkage
  initializer : Option Constant
  sectionName : String
  alignment : Nat
deriving DecidableEq, Repr

/-- Operands. `gepExpr` is a constant `getelementptr` expression over a base
pointer, `castExpr` any other constant expression over one operand, `other`
anything else (an argument, a block label, `undef`, ...). -/
inductive Value where
  | constInt (bits : Nat) (val : Nat)
  | global (addr : Nat)
  | inst (id : Nat)
  | gepExpr (base : Value) (indices : List Nat)
  | castExpr (arg : Value)
  | other (tag : Nat)
deriving DecidableEq, Repr

/-- Operation kinds. -/
inductive Opcode where
  | add | sub | mul | udiv | xor | and | or
  | alloca (elemBits : Nat)
  | getelementptr
  | load
  | store
  | ret | br | switch | unreachable
  | otherTerminator (code : Nat)
  | other (code : Nat)
deriving DecidableEq, Repr

/-- Control-transfer instructions end a block. -/
def Opcode.isTerminator : Opcode → Bool
  | .ret => true
  | .br => true
  | .switch => true
  | .unreachable => true
  | .otherTerminator _ => true
  | _ => false

/-- An instruction: identity, operation kind, operand list, volatile flag. -/
structure Instruction where
  id : Nat
  opcode : Opcode
  operands : List Value
  isVolatile : Bool
deriving DecidableEq, Repr

/-- A basic block owns an ordered list of instructions. -/
structure BasicBlock where
  insts : List Instruction
deriving DecidableEq, Repr

/-- A function owns an ordered list of blocks. -/
structure Function where
  name : String
  blocks : List BasicBlock
deriving DecidableEq, Repr

/-- A module owns its globals and its functions. -/
structure Module where
  globals : List GlobalVariable
  functions : List Function
deriving DecidableEq, Repr

/-- Least strict upper bound of a list of identities. -/
def idSup : List Nat → Nat
  | [] => 0
  | a :: l => max (a + 1) (idSup l)

/-- All instructions of a function, in layout order. -/
def Function.allInsts (F : Function) : List Instruction :=
  F.blocks.flatMap (fun B => B.insts)

/-- All instructions of a module, in layout order. -/
def Module.allInsts (M : Module) : List Instruction :=
  M.functions.flatMap Function.allInsts

/-- The first identity not used by any global or instruction of the module:
what an allocation made while the module is live can return. -/
def Module.freshId (M : Module) : Nat :=
  max (idSup (M.globals.map (fun g => g.addr))) (idSup (M.allInsts.map (fun i => i.id)))

/-- Ambient state threaded through a pass: how many times `rand()` has been
called, and the next unused object identity. -/
structure PassState where
  randCalls : Nat
  nextId : Nat
deriving DecidableEq, Repr

/-- The constant `ConstantInt::get(Type::getInt32Ty(ctx), v)` for a
non-negative `int` value `v`: the value is truncated to 32 bits. -/
def getInt32 (v : Nat) : Value := Value.constInt 32 (v % 2 ^ 32)

/-! ## `Junk::runOnModule` (src/AddJunkCode.cpp) -/

namespace Junk

/-- Lines 36-47: the global created by `new GlobalVariable(M, i32, false,
PrivateLinkage, i32 0, "RandomVariable")` followed by `setAlignment(4)`; the
constructor appends it to the global list of `M`. The field `name` is the
name passed to the constructor: when the module already has a symbol of that
name, its symbol table appends a numeric suffix, which depends on a counter
that is not part of this model. No statement below mentions the name of this
global; the sink is identified by its address. -/
def newGlobal (addr : Nat) : GlobalVariable :=
  { addr := addr
    name := "RandomVariable"
    valueType := IRType.int 32
    isConstant := false
    linkage := Linkage.privateLinkage
    initializer := some (Constant.int 32 0)
    sectionName := ""
    alignment := 4 }

/-- Lines 73-88: the operation selected by `choice`. Because
`choice = rand() % 7` is one of `0..6`, the last test of the source chain
(`choice == 6`) always succeeds when it is reached. -/
def binaryOp (choice : Nat) : Opcode :=
  if choice = 0 then Opcode.add
  else if choice = 1 then Opcode.sub
  else if choice = 2 then Opcode.mul
  else if choice = 3 then Opcode.udiv
  else if choice = 4 then Opcode.xor
  else if choice = 5 then Opcode.and
  else Opcode.or

/-- The builder calls of lines 73-88 go through `IRBuilder<NoFolder>`
(llvm/IR/IRBuilder.h, library code). Two of them do not always create an
instruction: `CreateOr` returns its left operand when the right operand is the
constant zero (`LHS | 0`), and `CreateAnd` returns its left operand when the
right operand is the constant with all bits set (`LHS & -1`). Every other
call creates an instruction and inserts it, also when both operands are
constants, because the folder `NoFolder` builds instructions. -/
def returnsLeft (op : Opcode) (Rig : Value) : Bool :=
  (op == Opcode.or && Rig == Value.constInt 32 0) ||
  (op == Opcode.and && Rig == Value.constInt 32 (2 ^ 32 - 1))

/-- Lines 70-88: draw `Rig` and `choice` and call the builder. Returns the
instructions the builder inserted (one, or none when it returned `Lef`
itself) and the value `Result`. -/
def createResult (rand : Nat → Nat) (st : PassState) (Lef : Value) :
    List Instruction × Value :=
  let Rig := getInt32 (rand st.randCalls)
  let choice := rand (st.randCalls + 1) % 7
  if returnsLeft (binaryOp choice) Rig then ([], Lef)
  else
    ([{ id := st.nextId, opcode := binaryOp choice, operands := [Lef, Rig]
        isVolatile := false }], Value.inst st.nextId)

/-- Lines 65-94, the body of the instruction loop for the pre-existing
instruction `i`: returns the instructions inserted before `i`, the new
accumulator `Lef`, and the new state. -/
def visit (rand : Nat → Nat) (global : GlobalVariable) (st : PassState) (Lef : Value)
    (i : Instruction) : List Instruction × Value × PassState :=
  let r := createResult rand st Lef
  let next := st.nextId + r.1.length
  if i.opcode = Opcode.ret then
    let store : Instruction :=
      { id := next, opcode := Opcode.store
        operands := [r.2, Value.global global.addr], isVolatile := true }
    (r.1 ++ [store], r.2, { randCalls := st.randCalls + 2, nextId := next + 1 })
  else
    (r.1, r.2, { randCalls := st.randCalls + 2, nextId := next })

/-- Line 64: the loop over the instructions of a block. New instructions are
inserted before the current one, so the loop never visits them. -/
def instLoop (rand : Nat → Nat) (global : GlobalVariable) :
    PassState → Value → List Instruction → List Instruction × PassState
  | st, _, [] => ([], st)
  | st, Lef, i :: rest =>
    let r := visit rand global st Lef i
    let out := instLoop rand global r.2.2 r.2.1 rest
    (r.1 ++ i :: out.1, out.2)

/-- Lines 57-96, one block: draw the seed `Lef`, then run the instruction loop. -/
def runOnBlock (rand : Nat → Nat) (global : GlobalVariable) (st : PassState)
    (blk : BasicBlock) : BasicBlock × PassState :=
  let Lef := getInt32 (rand st.randCalls)
  let out := instLoop rand global { st with randCalls := st.randCalls + 1 } Lef blk.insts
  ({ insts := out.1 }, out.2)

/-- Line 57: the loop over the blocks of a function. -/
def blockLoop (rand : Nat → Nat) (global : GlobalVariable) :
    PassState → List BasicBlock → List BasicBlock × PassState
  | st, [] => ([], st)
  | st, blk :: rest =>
    let r := runOnBlock rand global st blk
    let out := blockLoop rand global r.2 rest
    (r.1 :: out.1, out.2)

/-- Line 56: the loop over the functions of the module. -/
def functionLoop (rand : Nat → Nat) (global : GlobalVariable) :
    PassState → List Function → List Function × PassState
  | st, [] => ([], st)
  | st, F :: rest =>
    let r := blockLoop rand global st F.blocks
    let out := functionLoop rand global r.2 rest
    ({ F with blocks := r.1 } :: out.1, out.2)

/-- The pass entry point. `calls` is the number of `rand()` calls made before
the pass runs. Returns the value returned to the pass manager, the module
after the pass, and the number of `rand()` calls made so far. -/
def runOnModule (rand : Nat → Nat) (calls : Nat) (M : Module) : Bool × Module × Nat :=
  let global := newGlobal M.freshId
  let out := functionLoop rand global
    { randCalls := calls, nextId := M.freshId + 1 } M.functions
  (false, { globals := M.globals ++ [global], functions := out.1 }, out.2.randCalls)

end Junk

/-! ## `StringObfuscation::runOnModule` (src/StringObfuscation.cpp) -/

namespace StringObfuscation

/-- The pass object: its only data member is `staticStrings` (line 25), a
vector of pointers to the globals selected for rewriting. -/
structure Pass where
  staticStrings : List GlobalVariable
deriving DecidableEq, Repr

/-- Line 24: a newly constructed pass has an empty `staticStrings`. -/
def Pass.new : Pass := { staticStrings := [] }

/-- The test `hay.find(needle) != std::string::npos`. -/
def containsSubstr (needle : List Char) : List Char → Bool
  | [] => needle.isPrefixOf []
  | c :: cs => needle.isPrefixOf (c :: cs) || containsSubstr needle cs

/-- The test `isa<ConstantDataSequential>(global->getInitializer())`. -/
def isConstantDataSequential : Option Constant → Bool
  | some (Constant.dataArray _ _) => true
  | some (Constant.dataVector _ _) => true
  | _ => false

/-- Lines 43-48: the condition of the `if` in the discovery loop. -/
def discoverCondition (global : GlobalVariable) : Bool :=
  decide (global.name.data.take 4 = ".str".data) &&
  global.isConstant &&
  global.initializer.isSome &&
  isConstantDataSequential global.initializer &&
  decide (global.sectionName ≠ "llvm.metadata") &&
  !containsSubstr "__objc_methname".data global.sectionName.data

/-- Lines 33-58: the discovery loop over the globals of the module, in
declaration order. A global that passes the condition is appended to
`staticStrings` unless its initializer is not a `ConstantDataArray`
(lines 50-54, `continue`). -/
def discover : List GlobalVariable → List GlobalVariable → List GlobalVariable
  | staticStrings, [] => staticStrings
  | staticStrings, global :: rest =>
    if discoverCondition global then
      match global.initializer with
      | some (Constant.dataArray _ _) => discover (staticStrings ++ [global]) rest
      | _ => discover staticStrings rest
    else discover staticStrings rest

/-- The test `ConstantDataSequential::isCString`: an array of `i8` whose last
element is zero and that contains no other zero. `getAsCString` asserts it. -/
def isCString : Option Constant → Bool
  | some (Constant.dataArray elemBits data) =>
    decide (elemBits = 8) && decide (data.getLast? = some 0) && !data.dropLast.contains 0
  | _ => false

/-- Lines 99-102: `dyn_cast<ConstantDataArray>(gv->getInitializer())
->getAsCString()`, the contents with the last byte dropped
(`Str.substr(0, Str.size()-1)`; the assertion `isCString()` is not part of
the compiled behaviour). Every member of `staticStrings` has a
`ConstantDataArray` initializer (lines 50-54), so the last case is never
reached for one of them. -/
def getAsCString : Option Constant → List Nat
  | some (Constant.dataArray _ data) => data.dropLast
  | _ => []

/-- Conversion of a non-negative value to `int8_t`. -/
def toInt8 (v : Nat) : Int :=
  if v % 256 < 128 then ((v % 256 : Nat) : Int) else ((v % 256 : Nat) : Int) - 256

/-- The `int` value of `constStr[i]` for the byte `b`: `char` is signed on
some targets and unsigned on others. -/
def charValue (charSigned : Bool) (b : Nat) : Int :=
  if charSigned then toInt8 b else ((b % 256 : Nat) : Int)

/-- The constant `ConstantInt::get(Type::getInt8Ty(Context), v)`: the value is
truncated to 8 bits. -/
def getInt8 (v : Int) : Value := Value.constInt 8 (v % 256).toNat

/-- The index constant `Constant::getIntegerValue(i8, APInt(32, i))`: a 32-bit
constant holding `i` truncated to 32 bits. -/
def getIndex (i : Nat) : Value := Value.constInt 32 (i % 2 ^ 32)

/-- Lines 119-158, the body of the decryption loop at position `i`, where
`c` is the byte `constStr[i]` and `decryptStrBuf` identifies the buffer. -/
def decryptByte (charSigned : Bool) (rand : Nat → Nat) (decryptStrBuf : Nat)
    (st : PassState) (i : Nat) (c : Nat) : List Instruction × PassState :=
  let key : Int := toInt8 (rand st.randCalls % 254 + 1)
  let plaintext : Instruction :=
    { id := st.nextId, opcode := Opcode.xor
      operands := [getInt8 (Int.xor (charValue charSigned c) key), getInt8 key]
      isVolatile := false }
  let gep : Instruction :=
    { id := st.nextId + 1, opcode := Opcode.getelementptr
      operands := [Value.inst decryptStrBuf, getIndex i], isVolatile := false }
  let store : Instruction :=
    { id := st.nextId + 2, opcode := Opcode.store
      operands := [Value.inst plaintext.id, Value.inst gep.id], isVolatile := true }
  ([plaintext, gep, store], { randCalls := st.randCalls + 1, nextId := st.nextId + 3 })

/-- Line 119: the loop `for (i = 0; i < constStrSize; i++)`, started at index
`i` with the bytes `constStr[i..]` still to emit. -/
def decryptLoop (charSigned : Bool) (rand : Nat → Nat) (decryptStrBuf : Nat) :
    PassState → Nat → List Nat → List Instruction × PassState
  | st, _, [] => ([], st)
  | st, i, c :: rest =>
    let r := decryptByte charSigned rand decryptStrBuf st i c
    let out := decryptLoop charSigned rand decryptStrBuf r.2 (i + 1) rest
    (r.1 ++ out.1, out.2)

/-- Lines 91-182: everything inserted before the owning instruction for one
use of the candidate `gv`: the buffer, the decryption loop and the store of
the terminator. Returns the inserted instructions, the value of the buffer
(`decryptStrBuf`) and the new state. -/
def decryptSequence (charSigned : Bool) (rand : Nat → Nat) (st : PassState)
    (gv : GlobalVariable) : List Instruction × Value × PassState :=
  let constStr := getAsCString gv.initializer
  let constStrSize := constStr.length
  let decryptStrBuf : Instruction :=
    { id := st.nextId, opcode := Opcode.alloca 8
      operands := [getInt32 (constStrSize + 1)], isVolatile := false }
  let loop := decryptLoop charSigned rand decryptStrBuf.id
    { st with nextId := st.nextId + 1 } 0 constStr
  let gep : Instruction :=
    { id := loop.2.nextId, opcode := Opcode.getelementptr
      operands := [Value.inst decryptStrBuf.id, getIndex constStrSize], isVolatile := false }
  let store : Instruction :=
    { id := loop.2.nextId + 1, opcode := Opcode.store
      operands := [Value.constInt 8 0, Value.inst gep.id], isVolatile := true }
  (decryptStrBuf :: loop.1 ++ [gep, store], Value.inst decryptStrBuf.id,
    { loop.2 with nextId := loop.2.nextId + 2 })

/-- Lines 72-75: `isa<GEPOperator>(arg)` and `gepo->getPointerOperand()`. A
`GEPOperator` is either a constant `getelementptr` expression or the result of
a `getelementptr` instruction; `function` lists the instructions of the
enclosing function in their current state, where an instruction operand is
looked up. The pointer operand is operand 0. -/
def gepPointerOperand (function : List Instruction) : Value → Option Value
  | Value.gepExpr base _ => some base
  | Value.inst id =>
    match function.find? (fun j => j.id == id) with
    | some j => if j.opcode = Opcode.getelementptr then j.operands.head? else none
    | none => none
  | _ => none

/-- State of the operand loop of one instruction: the instructions inserted
before it so far, the instruction itself, and the ambient state. -/
structure UseState where
  inserted : List Instruction
  I : Instruction
  st : PassState
deriving DecidableEq, Repr

/-- Lines 71-192, the body of the operand loop for operand number `k` of the
instruction `s.I`. `before` and `after` are the instructions of the function
that precede the insertion point and that follow the instruction. -/
def rewriteUse (charSigned : Bool) (rand : Nat → Nat) (staticStrings : List GlobalVariable)
    (before after : List Instruction) (s : UseState) (k : Nat) : UseState :=
  match s.I.operands[k]? with
  | none => s
  | some arg =>
    match gepPointerOperand (before ++ s.inserted ++ s.I :: after) arg with
    | some (Value.global addr) =>
      match staticStrings.find? (fun g => g.addr == addr) with
      | some gv =>
        let r := decryptSequence charSigned rand s.st gv
        { inserted := s.inserted ++ r.1
          I := { s.I with operands := s.I.operands.set k r.2.1 }
          st := r.2.2 }
      | none => s
    | _ => s

/-- Line 71: the loop over the operands of the instruction `I`. -/
def operandLoop (charSigned : Bool) (rand : Nat → Nat) (staticStrings : List GlobalVariable)
    (before after : List Instruction) (st : PassState) (I : Instruction) : UseState :=
  (List.range I.operands.length).foldl
    (rewriteUse charSigned rand staticStrings before after)
    { inserted := [], I := I, st := st }

/-- Line 70: the loop over the instructions of a block. `done` is the part of
the block already processed (with what was inserted into it), `before` and
`after` are the instructions of the blocks of the function that precede and
follow this block. -/
def instLoop (charSigned : Bool) (rand : Nat → Nat) (staticStrings : List GlobalVariable)
    (before after : List Instruction) :
    PassState → List Instruction → List Instruction → List Instruction × PassState
  | st, done, [] => (done, st)
  | st, done, I :: rest =>
    let s := operandLoop charSigned rand staticStrings (before ++ done) (rest ++ after) st I
    instLoop charSigned rand staticStrings before after s.st (done ++ s.inserted ++ [s.I]) rest

/-- Line 69: the loop over the blocks of a function; `done` holds the blocks
already processed. -/
def blockLoop (charSigned : Bool) (rand : Nat → Nat) (staticStrings : List GlobalVariable) :
    PassState → List BasicBlock → List BasicBlock → List BasicBlock × PassState
  | st, done, [] => (done, st)
  | st, done, B :: rest =>
    let r := instLoop charSigned rand staticStrings
      (done.flatMap fun b => b.insts) (rest.flatMap fun b => b.insts) st [] B.insts
    blockLoop charSigned rand staticStrings r.2 (done ++ [{ insts := r.1 }]) rest

/-- Line 66: the loop over the functions of the module. -/
def functionLoop (charSigned : Bool) (rand : Nat → Nat) (staticStrings : List GlobalVariable) :
    PassState → List Function → List Function × PassState
  | st, [] => ([], st)
  | st, F :: rest =>
    let r := blockLoop charSigned rand staticStrings st [] F.blocks
    let out := functionLoop charSigned rand staticStrings r.2 rest
    ({ F with blocks := r.1 } :: out.1, out.2)

/-- Line 208: `gv->eraseFromParent()` removes the global at that address from
the global list of the module. -/
def eraseFromParent (gv : GlobalVariable) (globals : List GlobalVariable) :
    List GlobalVariable :=
  globals.filter (fun g => g.addr != gv.addr)

/-- Lines 204-209: the loop that pops `staticStrings` from the back; `stack`
lists it from the back to the front. -/
def reapLoop : List GlobalVariable → List GlobalVariable → List GlobalVariable
  | [], globals => globals
  | gv :: stack, globals => reapLoop stack (eraseFromParent gv globals)

/-- What `runOnModule` leaves behind: the value returned to the pass manager,
the module, the pass object and the number of `rand()` calls made so far. -/
structure Outcome where
  changed : Bool
  module : Module
  pass : Pass
  randCalls : Nat
deriving DecidableEq, Repr

/-- The pass entry point. `calls` is the number of `rand()` calls made before
the pass runs and `self` the pass object. -/
def runOnModule (charSigned : Bool) (rand : Nat → Nat) (calls : Nat) (self : Pass)
    (M : Module) : Outcome :=
  let staticStrings := discover self.staticStrings M.globals
  let out := functionLoop charSigned rand staticStrings
    { randCalls := calls, nextId := M.freshId } M.functions
  { changed := true
    module := { globals := reapLoop staticStrings.reverse M.globals, functions := out.1 }
    pass := { staticStrings := [] }
    randCalls := out.2.randCalls }

end StringObfuscation

/-! ## Vocabulary of the properties -/

/-- Block number `b` of function number `f` in a list of functions. -/
def blockAt (Fs : List Function) (f b : Nat) : Option BasicBlock :=
  match Fs[f]? with
  | some F => F.blocks[b]?
  | none => none

/-- The blocks of `M` and `N` correspond position by position (same functions,
same blocks in each), and every pair of corresponding blocks satisfies `P`. -/
def Blockwise (P : BasicBlock → BasicBlock → Prop) (M N : Module) : Prop :=
  ∀ f b : Nat,
    match blockAt M.functions f b, blockAt N.functions f b with
    | some B, some B' => P B B'
    | none, none => True
    | _, _ => False

/-- The instructions of a block that existed before identity `bound` was
handed out. -/
def preExisting (bound : Nat) (B : BasicBlock) : List Instruction :=
  B.insts.filter (fun i => decide (i.id < bound))

/-- The number of instructions of a block created at identity `bound` or later. -/
def injectedCount (bound : Nat) (B : BasicBlock) : Nat :=
  (B.insts.filter (fun i => decide (bound ≤ i.id))).length

/-- A block has exactly one terminator, and it is its last instruction. -/
def wellTerminated (B : BasicBlock) : Bool :=
  decide ((B.insts.filter (fun i => i.opcode.isTerminator)).length = 1) &&
  (B.insts.getLast?.map (fun i => i.opcode.isTerminator) == some true)

/-! ## Repeated runs of the junk pass -/

/-- The module after one run of the junk pass. -/
def Junk.once (rand : Nat → Nat) (calls : Nat) (M : Module) : Module :=
  (Junk.runOnModule rand calls M).2.1

/-- The module after a second run of the junk pass on the output of the
first; the random source continues where the first run left it. -/
def Junk.twice (rand : Nat → Nat) (calls : Nat) (M : Module) : Module :=
  (Junk.runOnModule rand (Junk.runOnModule rand calls M).2.2 (Junk.once rand calls M)).2.1

/-- The number of instructions in block `b` of function `f` of `N` that did
not exist in the original module `M`. -/
def injectedAt (M N : Module) (f b : Nat) : Nat :=
  match blockAt N.functions f b with
  | some B => injectedCount M.freshId B
  | none => 0

/-! ## Reading a decryption sequence -/

/-- The byte written by the store `s` of the instruction sequence `seq`: its
value operand is an 8-bit constant, or the result of an exclusive-or
instruction of `seq` over two 8-bit constants. -/
def storedByte (seq : List Instruction) (s : Instruction) : Option Nat :=
  match s.operands[0]? with
  | some (Value.constInt 8 v) => some v
  | some (Value.inst id) =>
    match seq.find? (fun x => x.id == id) with
    | some x =>
      match x.opcode, x.operands with
      | Opcode.xor, [Value.constInt 8 a, Value.constInt 8 b] => some (a ^^^ b)
      | _, _ => none
    | none => none
  | _ => none

/-- The buffer offset addressed by the store `s` of `seq`: its pointer operand
is the result of a `getelementptr` instruction of `seq` with one constant
index. -/
def storeOffset (seq : List Instruction) (s : Instruction) : Option Nat :=
  match s.operands[1]? with
  | some (Value.inst id) =>
    match seq.find? (fun x => x.id == id) with
    | some x =>
      match x.opcode, x.operands with
      | Opcode.getelementptr, [_, Value.constInt 32 off] => some off
      | _, _ => none
    | none => none
  | _ => none

/-- The writes performed by the stores of `seq`, in order, as pairs of buffer
offset and byte. -/
def bufferWrites (seq : List Instruction) : List (Option Nat × Option Nat) :=
  (seq.filter (fun x => decide (x.opcode = Opcode.store))).map
    (fun s => (storeOffset seq s, storedByte seq s))

/-! ## References to globals -/

/-- The operand mentions the global at `addr`, directly or inside a constant
expression. -/
def Value.refersTo (addr : Nat) : Value → Bool
  | Value.global a => a == addr
  | Value.gepExpr base _ => Value.refersTo addr base
  | Value.castExpr arg => Value.refersTo addr arg
  | _ => false

/-- Some operand of some instruction of the module refers to the global at
`addr`. -/
def Module.hasOperandReferringTo (M : Module) (addr : Nat) : Bool :=
  M.allInsts.any (fun i => i.operands.any (Value.refersTo addr))

/-- What the operand loop of the string pass keeps fixed while it processes
the instruction `I0` from state `st0`: the identity, operation kind, operand
count and volatile flag of the instruction; and what it inserts are new,
non-terminator instructions. -/
def StringObfuscation.UseInv (st0 : PassState) (I0 : Instruction)
    (s : StringObfuscation.UseState) : Prop :=
  s.I.id = I0.id ∧ s.I.opcode = I0.opcode ∧ s.I.operands.length = I0.operands.length ∧
  s.I.isVolatile = I0.isVolatile ∧ st0.nextId ≤ s.st.nextId ∧
  ∀ j ∈ s.inserted, j.opcode.isTerminator = false ∧ st0.nextId ≤ j.id

/-! ## The discovery predicate in the words of the specification -/

namespace Spec

/-- The condition "the initializer is a contiguous byte-sequence constant (not
a composite/aggregate of mixed element types)": a constant stored as densely
packed data, whether array or vector. -/
def isByteSequenceConstant : Option Constant → Bool
  | some (Constant.dataArray _ _) => true
  | some (Constant.dataVector _ _) => true
  | _ => false

/-- The section is the Objective-C method-name section: its name carries
`__objc_methname` (on Mach-O targets the full section specifier is
`__TEXT,__objc_methname,cstring_literals`). -/
def isObjcMethnameSection (sec : String) : Bool :=
  StringObfuscation.containsSubstr "__objc_methname".data sec.data

/-- The inclusion predicate as stated: the name starts with `.str`, the global
is constant, has an initializer, the initializer is a contiguous byte-sequence
constant, and the section is neither `llvm.metadata` nor the Objective-C
method-name section. -/
def isCandidate (g : GlobalVariable) : Bool :=
  ".str".data.isPrefixOf g.name.data &&
  g.isConstant &&
  g.initializer.isSome &&
  isByteSequenceConstant g.initializer &&
  decide (g.sectionName ≠ "llvm.metadata") &&
  !isObjcMethnameSection g.sectionName

/-- The initializer is a contiguous byte-sequence constant of array kind. -/
def isByteSequenceArray : Option Constant → Bool
  | some (Constant.dataArray _ _) => true
  | _ => false

/-- The inclusion predicate as amended: the initializer has to be of array
kind. -/
def isCandidateAmended (g : GlobalVariable) : Bool :=
  ".str".data.isPrefixOf g.name.data &&
  g.isConstant &&
  g.initializer.isSome &&
  isByteSequenceArray g.initializer &&
  decide (g.sectionName ≠ "llvm.metadata") &&
  !isObjcMethnameSection g.sectionName

end Spec

/-! ## Concrete modules -/

namespace Example

/-- A function `f` with a single block holding a single `ret`. -/
def retModule : Module :=
  { globals := []
    functions :=
      [{ name := "f"
         blocks := [{ insts := [{ id := 0, opcode := Opcode.ret, operands := []
                                  isVolatile := false }] }] }] }

/-- A random source that returns 41, then 0, then always 3. -/
def randZeroDivisor : Nat → Nat
  | 0 => 41
  | 1 => 0
  | _ => 3

/-- A random source that returns 41, then 0, then always 6. -/
def randOrZero : Nat → Nat
  | 0 => 41
  | 1 => 0
  | _ => 6

/-- A random source that always returns 5. -/
def randFive : Nat → Nat := fun _ => 5

/-- A string literal global as the front end emits it: private, constant,
named `name`, initialized with the `i8` array `data`, in section `sec`. -/
def literal (addr : Nat) (name : String) (data : List Nat) (sec : String) : GlobalVariable :=
  { addr := addr
    name := name
    valueType := IRType.array data.length 8
    isConstant := true
    linkage := Linkage.privateLinkage
    initializer := some (Constant.dataArray 8 data)
    sectionName := sec
    alignment := 1 }

/-- The literal `"abc"`: the bytes `a`, `b`, `c` and the terminating zero. -/
def abc : GlobalVariable := literal 0 ".str" [0x61, 0x62, 0x63, 0] ""

/-- The literal `"hi"`: the bytes `h`, `i` and the terminating zero. -/
def hi : GlobalVariable := literal 0 ".str" [0x68, 0x69, 0] ""

/-- The global `.str.1` in the default section. -/
def str1 : GlobalVariable := literal 0 ".str.1" [0x68, 0x69, 0] ""

/-- The same global `.str.1` placed in section `llvm.metadata`. -/
def str1Metadata : GlobalVariable := literal 0 ".str.1" [0x68, 0x69, 0] "llvm.metadata"

/-- The same global `.str.1` placed in section `__objc_methname`. -/
def str1ObjcMethname : GlobalVariable := literal 0 ".str.1" [0x68, 0x69, 0] "__objc_methname"

/-- The same global `.str.1`, not constant. -/
def str1Mutable : GlobalVariable := { str1 with isConstant := false }

/-- The global `.str.1` in the section in which Objective-C method names are
placed on Mach-O targets. -/
def str1MachOMethname : GlobalVariable :=
  literal 0 ".str.1" [0x68, 0x69, 0] "__TEXT,__objc_methname,cstring_literals"

/-- The global `.str.1` initialized with a data vector `<2 x i8>`. -/
def str1Vector : GlobalVariable :=
  { str1 with
    valueType := IRType.vector 2 8
    initializer := some (Constant.dataVector 8 [0x68, 0x69]) }

/-- The module of `char f(long i) { return "hi"[i]; }`: the literal `.str`,
and a function whose block computes the address of element `i` of the
literal with a `getelementptr` instruction, loads from it and returns. -/
def indexedUse : Module :=
  { globals := [hi]
    functions :=
      [{ name := "f"
         blocks :=
           [{ insts :=
               [ { id := 1, opcode := Opcode.getelementptr
                   operands := [Value.global 0, Value.constInt 64 0, Value.other 0]
                   isVolatile := false },
                 { id := 2, opcode := Opcode.load, operands := [Value.inst 1]
                   isVolatile := false },
                 { id := 3, opcode := Opcode.ret, operands := [Value.inst 2]
                   isVolatile := false } ] }] }] }

/-- The module of `const char *f(void) { return "hi"; }`: the literal `.str`
and a function that returns the address of its first byte, a constant
`getelementptr` expression. -/
def returnsLiteral : Module :=
  { globals := [hi]
    functions :=
      [{ name := "f"
         blocks :=
           [{ insts :=
               [ { id := 1, opcode := Opcode.ret
                   operands := [Value.gepExpr (Value.global 0) [0, 0]]
                   isVolatile := false } ] }] }] }

/-- A mutable global `counter` that is not a string literal. -/
def counter : GlobalVariable :=
  { addr := 1
    name := "counter"
    valueType := IRType.int 32
    isConstant := false
    linkage := Linkage.internalLinkage
    initializer := some (Constant.int 32 0)
    sectionName := ""
    alignment := 4 }

/-- The module of `return "hi";` with a second global that is no literal. -/
def literalAndCounter : Module :=
  { globals := [hi, counter]
    functions :=
      [{ name := "f"
         blocks :=
           [{ insts :=
               [ { id := 2, opcode := Opcode.ret
                   operands := [Value.gepExpr (Value.global 0) [0, 0]]
                   isVolatile := false } ] }] }] }

/-- The module of `int f(void) { g("hi", "hi"); return h("hi"); }` up to the
calls: the literal `.str` is the base of two operands of one instruction and
of one operand of another. -/
def threeUses : Module :=
  { globals := [hi]
    functions :=
      [{ name := "f"
         blocks :=
           [{ insts :=
               [ { id := 1, opcode := Opcode.other 0
                   operands := [Value.gepExpr (Value.global 0) [0, 0],
                     Value.gepExpr (Value.global 0) [0, 0], Value.other 0]
                   isVolatile := false },
                 { id := 2, opcode := Opcode.other 0
                   operands := [Value.gepExpr (Value.global 0) [0, 0], Value.other 1]
                   isVolatile := false },
                 { id := 3, opcode := Opcode.ret, operands := [Value.inst 2]
                   isVolatile := false } ] }] }] }

end Example

/-! ## Repeated runs of the string pass -/

/-- The outcome of one run of the string pass. -/
def StringObfuscation.once (charSigned : Bool) (rand : Nat → Nat) (calls : Nat)
    (self : StringObfuscation.Pass) (M : Module) : StringObfuscation.Outcome :=
  StringObfuscation.runOnModule charSigned rand calls self M

/-- The outcome of a second run of the string pass on the output of the first:
the same pass object runs again, and the random source continues where the
first run left it. -/
def StringObfuscation.twice (charSigned : Bool) (rand : Nat → Nat) (calls : Nat)
    (self : StringObfuscation.Pass) (M : Module) : StringObfuscation.Outcome :=
  StringObfuscation.runOnModule charSigned rand
    (StringObfuscation.once charSigned rand calls self M).randCalls
    (StringObfuscation.once charSigned rand calls self M).pass
    (StringObfuscation.once charSigned rand calls self M).module

/-! ## Vocabulary of the junk chain -/

namespace StringObfuscation

/-- The address of the global that is the pointer operand of the instruction
`j`, when `j` is a `getelementptr` instruction whose pointer operand is a
global. -/
def globalBase (j : Instruction) : Option Nat :=
  if j.opcode = Opcode.getelementptr then
    match j.operands.head? with
    | some (Value.global addr) => some addr
    | _ => none
  else none

/-- The operand `arg` is an address-compute expression (lines 72-75) whose
base is a global: the address of that global. -/
def baseAddr (function : List Instruction) (arg : Value) : Option Nat :=
  match gepPointerOperand function arg with
  | some (Value.global addr) => some addr
  | _ => none

/-- The operand `arg` is an address-compute expression based on a candidate
literal (lines 72-83): that candidate. -/
def candidateOf (staticStrings : List GlobalVariable) (function : List Instruction)
    (arg : Value) : Option GlobalVariable :=
  match baseAddr function arg with
  | some addr => staticStrings.find? (fun g => g.addr == addr)
  | none => none

/-- Operand number `k` of the instruction `I` is a use site: the candidate it
is based on. -/
def siteAt (staticStrings : List GlobalVariable) (function : List Instruction)
    (I : Instruction) (k : Nat) : Option GlobalVariable :=
  match I.operands[k]? with
  | some arg => candidateOf staticStrings function arg
  | none => none

/-- The use sites of the instruction `I` of a function with the instructions
`function`: the operand indices, in increasing order, whose operand is an
address-compute expression based on a candidate, each with its candidate. -/
def useSites (staticStrings : List GlobalVariable) (function : List Instruction)
    (I : Instruction) : List (Nat × GlobalVariable) :=
  (List.range I.operands.length).filterMap
    (fun k => (siteAt staticStrings function I k).map (fun gv => (k, gv)))

/-- The use sites of one instruction, each with the state in which its
decryption sequence is emitted, starting from `st`: the buffer of a site is
the instruction created first in that state. -/
def siteStates (charSigned : Bool) (rand : Nat → Nat) :
    PassState → List (Nat × GlobalVariable) → List (Nat × GlobalVariable × PassState)
  | _, [] => []
  | st, (k, gv) :: rest =>
    (k, gv, st) :: siteStates charSigned rand (decryptSequence charSigned rand st gv).2.2 rest

/-- The state after the decryption sequences of a list of use sites. -/
def siteEnd (charSigned : Bool) (rand : Nat → Nat) :
    PassState → List (Nat × GlobalVariable) → PassState
  | st, [] => st
  | st, (_, gv) :: rest => siteEnd charSigned rand (decryptSequence charSigned rand st gv).2.2 rest

/-- The operand list in which the operand of every use site has been replaced
by the buffer of that site. -/
def substituted : List (Nat × GlobalVariable × PassState) → List Value → List Value
  | [], ops => ops
  | x :: rest, ops => substituted rest (ops.set x.1 (Value.inst x.2.2.nextId))

/-- What the pass does at the instruction `I` of a function whose original
instructions are `function`, from state `st`: before `I` it inserts the
decryption sequences of the use sites of `I`, in operand order, and in `I` it
substitutes the buffer of each use site for the operand. -/
def rewritten (charSigned : Bool) (rand : Nat → Nat) (staticStrings : List GlobalVariable)
    (function : List Instruction) (st : PassState) (I : Instruction) : UseState :=
  { inserted := (siteStates charSigned rand st (useSites staticStrings function I)).flatMap
      (fun x => (decryptSequence charSigned rand x.2.2 x.2.1).1)
    I :=
      { id := I.id, opcode := I.opcode
        operands := substituted
          (siteStates charSigned rand st (useSites staticStrings function I)) I.operands
        isVolatile := I.isVolatile }
    st := siteEnd charSigned rand st (useSites staticStrings function I) }

/-- The list `L'` is a later state of the instruction list `L` of a function
during the pass: instructions created at identity `bound` or later, none of
them a `getelementptr` on a global, have been inserted, and instructions of
`L` have been replaced by instructions with the same identity and the same
global base. -/
inductive Evolved (bound : Nat) : List Instruction → List Instruction → Prop
  | nil : Evolved bound [] []
  | keep {I I' : Instruction} {L L' : List Instruction} :
      I'.id = I.id → globalBase I' = globalBase I → Evolved bound L L' →
      Evolved bound (I :: L) (I' :: L')
  | insert {j : Instruction} {L L' : List Instruction} :
      bound ≤ j.id → globalBase j = none → Evolved bound L L' → Evolved bound L (j :: L')

/-- The invariant of the operand loop of the instruction `I` when it reaches
operand number `m`. -/
def RefInv (bound : Nat) (I : Instruction) (m : Nat) (s : UseState) : Prop :=
  s.I.id = I.id ∧ globalBase s.I = globalBase I ∧
  (∀ j, m ≤ j → s.I.operands[j]? = I.operands[j]?) ∧
  (∀ x ∈ s.inserted, bound ≤ x.id ∧ globalBase x = none) ∧ bound ≤ s.st.nextId

namespace Ref

/-- The instruction loop described from the original function. -/
def instLoop (charSigned : Bool) (rand : Nat → Nat) (staticStrings : List GlobalVariable)
    (function : List Instruction) :
    PassState → List Instruction → List Instruction × PassState
  | st, [] => ([], st)
  | st, I :: rest =>
    let s := rewritten charSigned rand staticStrings function st I
    let out := instLoop charSigned rand staticStrings function s.st rest
    (s.inserted ++ s.I :: out.1, out.2)

/-- The block loop described from the original function. -/
def blockLoop (charSigned : Bool) (rand : Nat → Nat) (staticStrings : List GlobalVariable)
    (function : List Instruction) :
    PassState → List BasicBlock → List BasicBlock × PassState
  | st, [] => ([], st)
  | st, B :: rest =>
    let r := instLoop charSigned rand staticStrings function st B.insts
    let out := blockLoop charSigned rand staticStrings function r.2 rest
    ({ insts := r.1 } :: out.1, out.2)

/-- The function loop described from the original module. -/
def functionLoop (charSigned : Bool) (rand : Nat → Nat) (staticStrings : List GlobalVariable) :
    PassState → List Function → List Function × PassState
  | st, [] => ([], st)
  | st, F :: rest =>
    let r := blockLoop charSigned rand staticStrings F.allInsts st F.blocks
    let out := functionLoop charSigned rand staticStrings r.2 rest
    ({ F with blocks := r.1 } :: out.1, out.2)

end Ref

end StringObfuscation

/-! ## Buffers and use sites of a module -/

/-- The operation is a stack allocation. -/
def Opcode.isAlloca : Opcode → Bool
  | Opcode.alloca _ => true
  | _ => false

/-- The functions of `M` and `N`, and in each function the blocks, correspond
position by position, and every pair of corresponding blocks satisfies `P`
together with the function of `M` that holds the block. -/
def Functionwise (P : Function → BasicBlock → BasicBlock → Prop) (M N : Module) : Prop :=
  List.Forall₂ (fun F F' => List.Forall₂ (P F) F.blocks F'.blocks) M.functions N.functions

/-- The buffers inserted into an instruction list: the stack allocations
created at identity `bound` or later. -/
def StringObfuscation.insertedBuffers (bound : Nat) (insts : List Instruction) :
    List Instruction :=
  insts.filter (fun i => decide (bound ≤ i.id) && i.opcode.isAlloca)

/-- The number of use sites of a module: the pairs of an instruction and an
operand index whose operand is an address-compute expression based on a
candidate. -/
def StringObfuscation.useSiteCount (staticStrings : List GlobalVariable) (M : Module) : Nat :=
  (M.functions.map (fun F =>
    (F.allInsts.map (fun I => (StringObfuscation.useSites staticStrings F.allInsts I).length)).sum)).sum

/-! # Theorems -/

/-! ## General lemmas -/

theorem lt_idSup {a : Nat} {l : List Nat} (h : a ∈ l) : a < idSup l := by
  induction l with
  | nil => cases h
  | cons x xs ih =>
    simp only [idSup]
    rcases List.mem_cons.1 h with rfl | h
    · exact lt_of_lt_of_le (Nat.lt_succ_self _) (le_max_left _ _)
    · exact lt_of_lt_of_le (ih h) (le_max_right _ _)

theorem mem_block_of_blockAt {Fs : List Function} {f b : Nat} {B : BasicBlock}
    (h : blockAt Fs f b = some B) : ∃ F ∈ Fs, B ∈ F.blocks := by
  unfold blockAt at h
  cases hF : Fs[f]? with
  | none => simp [hF] at h
  | some F =>
    simp only [hF] at h
    exact ⟨F, List.getElem?_mem hF, List.getElem?_mem h⟩

theorem id_lt_freshId {M : Module} {f b : Nat} {B : BasicBlock}
    (h : blockAt M.functions f b = some B) {i : Instruction} (hi : i ∈ B.insts) :
    i.id < M.freshId := by
  obtain ⟨F, hF, hB⟩ := mem_block_of_blockAt h
  have hmem : i ∈ M.allInsts := by
    simp only [Module.allInsts, Function.allInsts, List.mem_flatMap]
    exact ⟨F, hF, B, hB, hi⟩
  exact lt_of_lt_of_le (lt_idSup (List.mem_map_of_mem _ hmem)) (le_max_right _ _)

theorem addr_lt_freshId {M : Module} {g : GlobalVariable} (h : g ∈ M.globals) :
    g.addr < M.freshId :=
  lt_of_lt_of_le (lt_idSup (List.mem_map_of_mem _ h)) (le_max_left _ _)

/-! ## Lemmas on the junk pass -/

namespace Junk

/-- The builder either returns `Lef` and inserts nothing, or inserts one
binary operation on `Lef` and the drawn constant and returns its result. -/
theorem createResult_cases (rand : Nat → Nat) (st : PassState) (Lef : Value) :
    (returnsLeft (binaryOp (rand (st.randCalls + 1) % 7)) (getInt32 (rand st.randCalls)) = true ∧
      createResult rand st Lef = ([], Lef)) ∨
    (returnsLeft (binaryOp (rand (st.randCalls + 1) % 7)) (getInt32 (rand st.randCalls)) = false ∧
      createResult rand st Lef =
        ([{ id := st.nextId, opcode := binaryOp (rand (st.randCalls + 1) % 7)
            operands := [Lef, getInt32 (rand st.randCalls)], isVolatile := false }],
         Value.inst st.nextId)) := by
  unfold createResult
  cases h : returnsLeft (binaryOp (rand (st.randCalls + 1) % 7)) (getInt32 (rand st.randCalls))
  · exact Or.inr ⟨rfl, by simp [h]⟩
  · exact Or.inl ⟨rfl, by simp [h]⟩

/-- What `visit` inserts: what the builder inserted, then a store of `Result`
when the visited instruction is a return. -/
theorem visit_inserted (rand : Nat → Nat) (g : GlobalVariable) (st : PassState) (Lef : Value)
    (i : Instruction) :
    (visit rand g st Lef i).1 =
      (createResult rand st Lef).1 ++
      (if i.opcode = Opcode.ret then
        [{ id := st.nextId + (createResult rand st Lef).1.length, opcode := Opcode.store
           operands := [(createResult rand st Lef).2, Value.global g.addr]
           isVolatile := true }]
       else []) := by
  unfold visit
  by_cases h : i.opcode = Opcode.ret <;> simp [h]

theorem visit_randCalls (rand : Nat → Nat) (g : GlobalVariable) (st : PassState) (Lef : Value)
    (i : Instruction) : (visit rand g st Lef i).2.2.randCalls = st.randCalls + 2 := by
  unfold visit
  by_cases h : i.opcode = Opcode.ret <;> simp [h]

theorem visit_nextId (rand : Nat → Nat) (g : GlobalVariable) (st : PassState) (Lef : Value)
    (i : Instruction) :
    (visit rand g st Lef i).2.2.nextId = st.nextId + (visit rand g st Lef i).1.length := by
  unfold visit
  by_cases h : i.opcode = Opcode.ret <;> simp [h, Nat.add_assoc]

theorem binaryOp_not_terminator (c : Nat) : (binaryOp c).isTerminator = false := by
  unfold binaryOp
  repeat' split
  all_goals rfl

theorem binaryOp_ne_ret (c : Nat) : binaryOp c ≠ Opcode.ret := by
  intro h
  have := binaryOp_not_terminator c
  rw [h] at this
  cases this

theorem visit_mem (rand : Nat → Nat) (g : GlobalVariable) (st : PassState) (Lef : Value)
    (i j : Instruction) (hj : j ∈ (visit rand g st Lef i).1) :
    st.nextId ≤ j.id ∧ j.opcode.isTerminator = false ∧ j.opcode ≠ Opcode.ret := by
  rw [visit_inserted] at hj
  rcases List.mem_append.1 hj with hj | hj
  · rcases createResult_cases rand st Lef with ⟨_, h⟩ | ⟨_, h⟩
    · simp [h] at hj
    · simp only [h, List.mem_singleton] at hj
      subst hj
      exact ⟨le_refl _, binaryOp_not_terminator _, binaryOp_ne_ret _⟩
  · by_cases h : i.opcode = Opcode.ret
    · simp only [h, if_true, List.mem_singleton] at hj
      subst hj
      exact ⟨Nat.le_add_right _ _, rfl, by simp⟩
    · simp [h] at hj

theorem instLoop_nextId (rand : Nat → Nat) (g : GlobalVariable) (insts : List Instruction) :
    ∀ (st : PassState) (Lef : Value), st.nextId ≤ (instLoop rand g st Lef insts).2.nextId := by
  induction insts with
  | nil => intro st Lef; simp [instLoop]
  | cons i rest ih =>
    intro st Lef
    simp only [instLoop]
    refine le_trans ?_ (ih _ _)
    rw [visit_nextId]
    exact Nat.le_add_right _ _

/-- The output of the instruction loop is the input with a group of new
instructions spliced in before each instruction. -/
theorem instLoop_groups (rand : Nat → Nat) (g : GlobalVariable) (insts : List Instruction) :
    ∀ (st : PassState) (Lef : Value),
      ∃ groups : List (List Instruction), groups.length = insts.length ∧
        (instLoop rand g st Lef insts).1
          = (List.zipWith (fun grp i => grp ++ [i]) groups insts).flatten ∧
        ∀ grp ∈ groups, ∀ j ∈ grp,
          st.nextId ≤ j.id ∧ j.opcode.isTerminator = false ∧ j.opcode ≠ Opcode.ret := by
  induction insts with
  | nil => intro st Lef; exact ⟨[], rfl, by simp [instLoop], by simp⟩
  | cons i rest ih =>
    intro st Lef
    obtain ⟨groups, hlen, hout, hnew⟩ := ih (visit rand g st Lef i).2.2 (visit rand g st Lef i).2.1
    refine ⟨(visit rand g st Lef i).1 :: groups, by simp [hlen], ?_, ?_⟩
    · simp only [instLoop, hout, List.zipWith_cons_cons, List.flatten_cons, List.append_assoc,
        List.singleton_append]
    · intro grp hgrp j hj
      rcases List.mem_cons.1 hgrp with rfl | hgrp
      · exact visit_mem rand g st Lef i j hj
      · obtain ⟨h1, h2, h3⟩ := hnew grp hgrp j hj
        refine ⟨le_trans ?_ h1, h2, h3⟩
        rw [visit_nextId]
        exact Nat.le_add_right _ _

/-- Filtering a spliced list by a predicate that rejects every spliced-in
instruction gives back the filtered original list. -/
theorem filter_spliced (p : Instruction → Bool) :
    ∀ (groups : List (List Instruction)) (insts : List Instruction),
      (∀ grp ∈ groups, ∀ j ∈ grp, p j = false) →
      ((List.zipWith (fun grp i => grp ++ [i]) groups insts).flatten).filter p
        = (insts.take groups.length).filter p := by
  intro groups
  induction groups with
  | nil => intro insts _; simp
  | cons grp groups ih =>
    intro insts h
    cases insts with
    | nil => simp
    | cons i rest =>
      have h1 : grp.filter p = [] := by
        rw [List.filter_eq_nil_iff]
        intro j hj
        simp [h grp (List.mem_cons_self _ _) j hj]
      have h2 := ih rest (fun grp' hg j hj => h grp' (List.mem_cons_of_mem _ hg) j hj)
      simp only [List.zipWith_cons_cons, List.flatten_cons, List.filter_append, h1,
        List.nil_append, h2, List.length_cons, List.take_succ_cons]
      by_cases hp : p i = true <;> simp [List.filter_cons, hp]

/-- The last element of a spliced list is the last element of the original. -/
theorem getLast?_spliced :
    ∀ (groups : List (List Instruction)) (insts : List Instruction),
      groups.length = insts.length →
      ((List.zipWith (fun grp i => grp ++ [i]) groups insts).flatten).getLast?
        = insts.getLast? := by
  intro groups
  induction groups with
  | nil =>
    intro insts h
    have : insts = [] := List.length_eq_zero.1 h.symm
    simp [this]
  | cons grp groups ih =>
    intro insts h
    cases insts with
    | nil => simp at h
    | cons i rest =>
      have hlen : groups.length = rest.length := by simpa using h
      have h2 := ih rest hlen
      simp only [List.zipWith_cons_cons, List.flatten_cons, List.append_assoc,
        List.singleton_append]
      rw [List.getLast?_append, List.getLast?_cons, List.getLast?_cons, h2]
      simp

end Junk

namespace Junk

theorem runOnBlock_nextId (rand : Nat → Nat) (g : GlobalVariable) (st : PassState)
    (blk : BasicBlock) : st.nextId ≤ (runOnBlock rand g st blk).2.nextId := by
  exact instLoop_nextId rand g blk.insts
    { randCalls := st.randCalls + 1, nextId := st.nextId } (getInt32 (rand st.randCalls))

theorem blockLoop_nextId (rand : Nat → Nat) (g : GlobalVariable) (Bs : List BasicBlock) :
    ∀ st : PassState, st.nextId ≤ (blockLoop rand g st Bs).2.nextId := by
  induction Bs with
  | nil => intro st; simp [blockLoop]
  | cons B rest ih =>
    intro st
    simp only [blockLoop]
    exact le_trans (runOnBlock_nextId rand g st B) (ih _)

/-- Every block of the output of the block loop is `runOnBlock` applied to the
block at the same position, in some state reached from the initial one. -/
theorem blockLoop_getElem? (rand : Nat → Nat) (g : GlobalVariable) (Bs : List BasicBlock) :
    ∀ (st : PassState) (b : Nat), ∃ st' : PassState, st.nextId ≤ st'.nextId ∧
      (blockLoop rand g st Bs).1[b]? = Bs[b]?.map (fun B => (runOnBlock rand g st' B).1) := by
  induction Bs with
  | nil => intro st b; exact ⟨st, le_refl _, by simp [blockLoop]⟩
  | cons B rest ih =>
    intro st b
    cases b with
    | zero => exact ⟨st, le_refl _, by simp [blockLoop]⟩
    | succ b =>
      obtain ⟨st', hle, h⟩ := ih (runOnBlock rand g st B).2 b
      exact ⟨st', le_trans (runOnBlock_nextId rand g st B) hle, by simpa [blockLoop] using h⟩

theorem functionLoop_blockAt (rand : Nat → Nat) (g : GlobalVariable) (Fs : List Function) :
    ∀ (st : PassState) (f b : Nat), ∃ st' : PassState, st.nextId ≤ st'.nextId ∧
      blockAt (functionLoop rand g st Fs).1 f b
        = (blockAt Fs f b).map (fun B => (runOnBlock rand g st' B).1) := by
  induction Fs with
  | nil => intro st f b; exact ⟨st, le_refl _, by simp [functionLoop, blockAt]⟩
  | cons F rest ih =>
    intro st f b
    cases f with
    | zero =>
      obtain ⟨st', hle, h⟩ := blockLoop_getElem? rand g F.blocks st b
      exact ⟨st', hle, by simpa [functionLoop, blockAt] using h⟩
    | succ f =>
      obtain ⟨st', hle, h⟩ := ih (blockLoop rand g st F.blocks).2 f b
      refine ⟨st', le_trans (blockLoop_nextId rand g F.blocks st) hle, ?_⟩
      simpa [functionLoop, blockAt] using h

theorem runOnModule_blockAt (rand : Nat → Nat) (calls : Nat) (M : Module) (f b : Nat) :
    ∃ st' : PassState, M.freshId + 1 ≤ st'.nextId ∧
      blockAt (runOnModule rand calls M).2.1.functions f b
        = (blockAt M.functions f b).map
            (fun B => (runOnBlock rand (newGlobal M.freshId) st' B).1) := by
  exact functionLoop_blockAt rand (newGlobal M.freshId) M.functions
    { randCalls := calls, nextId := M.freshId + 1 } f b

end Junk

/-- Two modules are blockwise related as soon as every block of the second is
the image of the block at the same position of the first under a map that
establishes the relation. -/
theorem blockwise_of_map {P : BasicBlock → BasicBlock → Prop} {M N : Module}
    (h : ∀ f b : Nat, ∃ φ : BasicBlock → BasicBlock,
      blockAt N.functions f b = (blockAt M.functions f b).map φ ∧
      ∀ B, blockAt M.functions f b = some B → P B (φ B)) :
    Blockwise P M N := by
  intro f b
  obtain ⟨φ, h1, h2⟩ := h f b
  rw [h1]
  cases hB : blockAt M.functions f b with
  | none => simp
  | some B => simpa using h2 B hB

namespace Junk

theorem instLoop_preExisting (rand : Nat → Nat) (g : GlobalVariable) (insts : List Instruction)
    (st : PassState) (Lef : Value) (bound : Nat) (hb : bound ≤ st.nextId) :
    ((instLoop rand g st Lef insts).1.filter (fun i => decide (i.id < bound)))
      = insts.filter (fun i => decide (i.id < bound)) := by
  obtain ⟨groups, hlen, hout, hnew⟩ := instLoop_groups rand g insts st Lef
  rw [hout, filter_spliced _ groups insts, hlen, List.take_length]
  intro grp hgrp j hj
  have := (hnew grp hgrp j hj).1
  simp only [decide_eq_false_iff_not, not_lt]
  omega

end Junk

/-- C4. Structural preservation of the junk pass: the blocks of the module
after the pass correspond one to one to the original blocks, and in every
block (1) the instructions that existed before the pass, taken in their order
after the pass, are exactly the original instruction sequence; (2) the block is
the original sequence with a group of new instructions spliced in immediately
before each original instruction, so every injected instruction is followed
by the original instruction it was inserted before; (3) the last instruction
is still the original last instruction. -/
theorem junk_structural_preservation (rand : Nat → Nat) (calls : Nat) (M : Module) :
    Blockwise
      (fun B B' =>
        preExisting M.freshId B' = B.insts ∧
        (∃ groups : List (List Instruction), groups.length = B.insts.length ∧
          B'.insts = (List.zipWith (fun grp i => grp ++ [i]) groups B.insts).flatten ∧
          ∀ grp ∈ groups, ∀ j ∈ grp, M.freshId ≤ j.id) ∧
        B'.insts.getLast? = B.insts.getLast?)
      M (Junk.runOnModule rand calls M).2.1 := by
  apply blockwise_of_map
  intro f b
  obtain ⟨st', hle, h⟩ := Junk.runOnModule_blockAt rand calls M f b
  refine ⟨_, h, ?_⟩
  intro B hB
  have hold : ∀ i ∈ B.insts, i.id < M.freshId := fun i hi => id_lt_freshId hB hi
  have hfil : B.insts.filter (fun i => decide (i.id < M.freshId)) = B.insts := by
    rw [List.filter_eq_self]
    intro i hi
    simpa using hold i hi
  obtain ⟨groups, hlen, hout, hnew⟩ := Junk.instLoop_groups rand (Junk.newGlobal M.freshId)
    B.insts { randCalls := st'.randCalls + 1, nextId := st'.nextId }
    (getInt32 (rand st'.randCalls))
  refine ⟨?_, ⟨groups, hlen, hout, ?_⟩, ?_⟩
  · show ((Junk.instLoop rand (Junk.newGlobal M.freshId)
        { randCalls := st'.randCalls + 1, nextId := st'.nextId }
        (getInt32 (rand st'.randCalls)) B.insts).1.filter _) = _
    rw [Junk.instLoop_preExisting _ _ _ _ _ _ (by show M.freshId ≤ st'.nextId; omega), hfil]
  · intro grp hgrp j hj
    have := (hnew grp hgrp j hj).1
    simp only at this
    omega
  · show (Junk.instLoop rand (Junk.newGlobal M.freshId)
        { randCalls := st'.randCalls + 1, nextId := st'.nextId }
        (getInt32 (rand st'.randCalls)) B.insts).1.getLast? = _
    rw [hout, Junk.getLast?_spliced groups B.insts hlen]

/-- C5 (failing behaviour). For every module and random source the junk pass
returns `false` although the module it leaves behind differs from the module
it was given (it always adds the sink global): the returned flag is not
"true iff modified". -/
theorem junk_returns_false_but_modifies (rand : Nat → Nat) (calls : Nat) (M : Module) :
    (Junk.runOnModule rand calls M).1 = false ∧ (Junk.runOnModule rand calls M).2.1 ≠ M := by
  refine ⟨rfl, ?_⟩
  intro h
  have hg := congrArg (fun N : Module => N.globals.length) h
  simp [Junk.runOnModule] at hg

/-- C9. Sink uniqueness: after one run of the junk pass the global list is the
original list, unchanged and in order, followed by exactly one new global,
which has private linkage, is not constant, has the 32-bit integer type, is
initialized to the 32-bit zero, has alignment 4, and whose identity differs
from that of every pre-existing global. -/
theorem junk_sink_unique (rand : Nat → Nat) (calls : Nat) (M : Module) :
    ∃ sink : GlobalVariable,
      (Junk.runOnModule rand calls M).2.1.globals = M.globals ++ [sink] ∧
      (Junk.runOnModule rand calls M).2.1.globals.length = M.globals.length + 1 ∧
      sink.linkage = Linkage.privateLinkage ∧
      sink.isConstant = false ∧
      sink.valueType = IRType.int 32 ∧
      sink.initializer = some (Constant.int 32 0) ∧
      sink.alignment = 4 ∧
      ∀ g ∈ M.globals, g.addr ≠ sink.addr := by
  refine ⟨Junk.newGlobal M.freshId, rfl, by simp [Junk.runOnModule], rfl, rfl, rfl, rfl, rfl, ?_⟩
  intro g hg
  have := addr_lt_freshId hg
  simp only [Junk.newGlobal]
  omega

/-- C10 (failing input). On the module with the single instruction `ret` and
the random source returning 41, 0, 3, ... the junk pass injects, as first
instruction of the block, an unsigned divide whose right-hand operand is the
32-bit constant zero. -/
theorem junk_injects_udiv_by_zero :
    blockAt (Junk.runOnModule Example.randZeroDivisor 0 Example.retModule).2.1.functions 0 0
      = some { insts :=
          [ { id := 2, opcode := Opcode.udiv
              operands := [Value.constInt 32 41, Value.constInt 32 0], isVolatile := false },
            { id := 3, opcode := Opcode.store
              operands := [Value.inst 2, Value.global 1], isVolatile := true },
            { id := 0, opcode := Opcode.ret, operands := [], isVolatile := false } ] } := by
  decide

/-- When the builder returns the accumulator, the count is not tripled either:
with the random source returning 41, 0, 6, ... the first run injects only the
store (1 instruction), and two runs leave 4 injected instructions. -/
theorem junk_twice_with_returned_accumulator :
    injectedAt Example.retModule (Junk.once Example.randOrZero 0 Example.retModule) 0 0 = 1 ∧
    injectedAt Example.retModule (Junk.twice Example.randOrZero 0 Example.retModule) 0 0 = 4 := by
  decide

/-! ## Lemmas on the string pass -/

namespace StringObfuscation

theorem take_four_eq_iff (l : List Char) :
    l.take 4 = ".str".data ↔ ".str".data.isPrefixOf l = true := by
  rw [List.isPrefixOf_iff_prefix]
  constructor
  · intro h
    rw [← h]
    exact List.take_prefix 4 l
  · intro h
    obtain ⟨t, rfl⟩ := h
    rfl

/-- The discovery loop appends to `staticStrings` the globals that satisfy
the amended predicate, in order. -/
theorem discover_eq_filter (globals : List GlobalVariable) :
    ∀ staticStrings : List GlobalVariable,
      discover staticStrings globals
        = staticStrings ++ globals.filter Spec.isCandidateAmended := by
  induction globals with
  | nil => intro ss; simp [discover]
  | cons g rest ih =>
    intro ss
    have hpre : decide (g.name.data.take 4 = ".str".data) = ".str".data.isPrefixOf g.name.data := by
      rw [Bool.eq_iff_iff, decide_eq_true_iff]
      exact take_four_eq_iff _
    simp only [discover, discoverCondition, hpre]
    cases hinit : g.initializer with
    | none =>
      simp [isConstantDataSequential, Spec.isCandidateAmended, Spec.isByteSequenceArray,
        Spec.isObjcMethnameSection, hinit, ih, List.filter_cons]
    | some c =>
      cases c <;>
        by_cases h1 : ".str".data.isPrefixOf g.name.data = true <;>
        by_cases h2 : g.isConstant = true <;>
        by_cases h3 : g.sectionName = "llvm.metadata" <;>
        by_cases h4 : containsSubstr "__objc_methname".data g.sectionName.data = true <;>
        simp [isConstantDataSequential, Spec.isCandidateAmended, Spec.isByteSequenceArray,
          Spec.isObjcMethnameSection, hinit, ih, List.filter_cons, h1, h2, h3, h4]

end StringObfuscation

/-- C6 (counterexample). The constant global `.str.1` in the default section
whose initializer is the data vector `<2 x i8> <h, i>` satisfies every
condition of the stated predicate, yet the discovery loop does not select it
(lines 50-54 skip an initializer that is not a data array). -/
theorem discovery_filter_not_exact :
    Spec.isCandidate Example.str1Vector = true ∧
    [Example.str1Vector].filter Spec.isCandidate = [Example.str1Vector] ∧
    StringObfuscation.discover [] [Example.str1Vector] = [] := by
  decide

/-- C6 (amended). The candidate list produced by the string pass is exactly
the sub-list, in declaration order, of the globals whose name starts with
`.str`, that are constant, have an initializer, whose initializer is a
contiguous byte-sequence constant of array kind (a data vector is skipped),
and whose section is neither `llvm.metadata` nor the Objective-C method-name
section (a section whose name contains `__objc_methname`). -/
theorem discovery_filter (M : Module) :
    StringObfuscation.discover StringObfuscation.Pass.new.staticStrings M.globals
      = M.globals.filter Spec.isCandidateAmended := by
  rw [StringObfuscation.discover_eq_filter]
  rfl

/-- The examples of the discovery filter: `.str.1` in the default section is
selected; in section `llvm.metadata`, `__objc_methname` or
`__TEXT,__objc_methname,cstring_literals`, or when it is not constant, it is
not. -/
theorem discovery_filter_examples :
    StringObfuscation.discover [] [Example.str1] = [Example.str1] ∧
    StringObfuscation.discover [] [Example.str1Metadata] = [] ∧
    StringObfuscation.discover [] [Example.str1ObjcMethname] = [] ∧
    StringObfuscation.discover [] [Example.str1MachOMethname] = [] ∧
    StringObfuscation.discover [] [Example.str1Mutable] = [] := by
  decide

/-! ## Byte arithmetic of the decryption sequence -/

set_option maxRecDepth 100000 in
theorem sub_eq_xor_255 : ∀ y < 256, 255 - y = 255 ^^^ y := by decide

theorem xor_255_lt {y : Nat} (hy : y < 256) : 255 ^^^ y < 256 :=
  Nat.xor_lt_two_pow (n := 8) (by norm_num) hy

theorem negSucc_emod_256 (x : Nat) (hx : x < 256) : (Int.negSucc x % 256).toNat = 255 - x := by
  rw [Int.negSucc_eq]
  omega

theorem toInt8_of_lt {v : Nat} (h : v % 256 < 128) : StringObfuscation.toInt8 v = ((v % 256 : Nat) : Int) := by
  simp [StringObfuscation.toInt8, h]

theorem toInt8_of_ge {v : Nat} (h : ¬ v % 256 < 128) :
    StringObfuscation.toInt8 v = Int.negSucc (255 - v % 256) := by
  have := Nat.mod_lt v (show 0 < 256 by norm_num)
  simp only [StringObfuscation.toInt8, h, if_false]
  rw [Int.negSucc_eq]
  omega

/-- Truncating an `int8_t` value to 8 bits gives back the low byte. -/
theorem toInt8_emod (v : Nat) : (StringObfuscation.toInt8 v % 256).toNat = v % 256 := by
  have := Nat.mod_lt v (show 0 < 256 by norm_num)
  unfold StringObfuscation.toInt8
  split <;> omega

/-- The low byte of the `int` exclusive-or of two sign-extended bytes is the
exclusive-or of the bytes. -/
theorem xor_toInt8_emod (a b : Nat) :
    (Int.xor (StringObfuscation.toInt8 a) (StringObfuscation.toInt8 b) % 256).toNat
      = (a % 256) ^^^ (b % 256) := by
  have ha := Nat.mod_lt a (show 0 < 256 by norm_num)
  have hb := Nat.mod_lt b (show 0 < 256 by norm_num)
  have hab : (a % 256) ^^^ (b % 256) < 256 := Nat.xor_lt_two_pow (n := 8) ha hb
  by_cases h1 : a % 256 < 128 <;> by_cases h2 : b % 256 < 128
  · rw [toInt8_of_lt h1, toInt8_of_lt h2]
    show (((a % 256 ^^^ b % 256 : Nat) : Int) % 256).toNat = _
    omega
  · rw [toInt8_of_lt h1, toInt8_of_ge h2]
    show (Int.negSucc (a % 256 ^^^ (255 - b % 256)) % 256).toNat = _
    rw [sub_eq_xor_255 _ hb]
    have hlt : a % 256 ^^^ (255 ^^^ b % 256) < 256 :=
      Nat.xor_lt_two_pow (n := 8) ha (xor_255_lt hb)
    rw [negSucc_emod_256 _ hlt, sub_eq_xor_255 _ hlt, ← Nat.xor_assoc, Nat.xor_comm 255,
      Nat.xor_assoc, Nat.xor_cancel_left]
  · rw [toInt8_of_ge h1, toInt8_of_lt h2]
    show (Int.negSucc ((255 - a % 256) ^^^ b % 256) % 256).toNat = _
    rw [sub_eq_xor_255 _ ha]
    have hlt : (255 ^^^ a % 256) ^^^ b % 256 < 256 :=
      Nat.xor_lt_two_pow (n := 8) (xor_255_lt ha) hb
    rw [negSucc_emod_256 _ hlt, sub_eq_xor_255 _ hlt, Nat.xor_assoc, Nat.xor_cancel_left]
  · rw [toInt8_of_ge h1, toInt8_of_ge h2]
    show ((((255 - a % 256) ^^^ (255 - b % 256) : Nat) : Int) % 256).toNat = _
    rw [sub_eq_xor_255 _ ha, sub_eq_xor_255 _ hb]
    have e : (255 ^^^ a % 256) ^^^ (255 ^^^ b % 256) = a % 256 ^^^ b % 256 := by
      rw [Nat.xor_comm 255 (a % 256), Nat.xor_assoc, Nat.xor_cancel_left]
    rw [e]
    omega

/-- The low byte of the `int` exclusive-or of an unsigned byte and a
sign-extended byte is the exclusive-or of the bytes. -/
theorem xor_unsigned_toInt8_emod (a b : Nat) :
    (Int.xor ((a % 256 : Nat) : Int) (StringObfuscation.toInt8 b) % 256).toNat
      = (a % 256) ^^^ (b % 256) := by
  have ha := Nat.mod_lt a (show 0 < 256 by norm_num)
  have hb := Nat.mod_lt b (show 0 < 256 by norm_num)
  have hab : (a % 256) ^^^ (b % 256) < 256 := Nat.xor_lt_two_pow (n := 8) ha hb
  by_cases h2 : b % 256 < 128
  · rw [toInt8_of_lt h2]
    show (((a % 256 ^^^ b % 256 : Nat) : Int) % 256).toNat = _
    omega
  · rw [toInt8_of_ge h2]
    show (Int.negSucc (a % 256 ^^^ (255 - b % 256)) % 256).toNat = _
    rw [sub_eq_xor_255 _ hb]
    have hlt : a % 256 ^^^ (255 ^^^ b % 256) < 256 :=
      Nat.xor_lt_two_pow (n := 8) ha (xor_255_lt hb)
    rw [negSucc_emod_256 _ hlt, sub_eq_xor_255 _ hlt, ← Nat.xor_assoc, Nat.xor_comm 255,
      Nat.xor_assoc, Nat.xor_cancel_left]

/-- The two immediates of a decryption instruction: the ciphertext immediate
is the plaintext byte xor the key byte, whatever the signedness of `char`. -/
theorem cipher_immediate (charSigned : Bool) (c k : Nat) :
    (Int.xor (StringObfuscation.charValue charSigned c) (StringObfuscation.toInt8 k) % 256).toNat
      = (c % 256) ^^^ (k % 256) := by
  cases charSigned
  · exact xor_unsigned_toInt8_emod c k
  · exact xor_toInt8_emod c k

namespace StringObfuscation

theorem decryptLoop_state (cs : Bool) (rand : Nat → Nat) (buf : Nat) (l : List Nat) :
    ∀ (st : PassState) (i0 : Nat),
      (decryptLoop cs rand buf st i0 l).2
        = { randCalls := st.randCalls + l.length, nextId := st.nextId + 3 * l.length } := by
  induction l with
  | nil => intro st i0; simp [decryptLoop]
  | cons c rest ih =>
    intro st i0
    simp only [decryptLoop, ih, List.length_cons]
    simp only [decryptByte, PassState.mk.injEq]
    constructor <;> omega

/-- The exclusive-or instructions of the loop output, in order: the one at
position `k` is the one emitted for the byte at position `k`. -/
theorem decryptLoop_xors (cs : Bool) (rand : Nat → Nat) (buf : Nat) (l : List Nat) :
    ∀ (st : PassState) (i0 k : Nat),
      ((decryptLoop cs rand buf st i0 l).1.filter (fun x => decide (x.opcode = Opcode.xor)))[k]?
        = l[k]?.bind (fun c => (decryptByte cs rand buf
            { randCalls := st.randCalls + k, nextId := st.nextId + 3 * k } (i0 + k) c).1[0]?) := by
  induction l with
  | nil => intro st i0 k; simp [decryptLoop]
  | cons c0 rest ih =>
    intro st i0 k
    have hfil : (decryptByte cs rand buf st i0 c0).1.filter (fun x => decide (x.opcode = Opcode.xor))
        = [{ id := st.nextId, opcode := Opcode.xor
             operands := [getInt8 (Int.xor (charValue cs c0) (toInt8 (rand st.randCalls % 254 + 1))),
               getInt8 (toInt8 (rand st.randCalls % 254 + 1))]
             isVolatile := false }] := by
      simp [decryptByte, List.filter_cons]
    simp only [decryptLoop, List.filter_append, hfil, List.singleton_append]
    cases k with
    | zero => simp [decryptByte]
    | succ k =>
      simp only [List.getElem?_cons_succ]
      rw [ih]
      have e2 : (decryptByte cs rand buf st i0 c0).2
          = { randCalls := st.randCalls + 1, nextId := st.nextId + 3 } := rfl
      rw [e2]
      have e3 : st.randCalls + 1 + k = st.randCalls + (k + 1) := by omega
      have e4 : st.nextId + 3 + 3 * k = st.nextId + 3 * (k + 1) := by omega
      have e5 : i0 + 1 + k = i0 + (k + 1) := by omega
      simp only [e3, e4, e5]

end StringObfuscation

namespace StringObfuscation

/-- The instructions emitted for one use site, spelled out. -/
theorem decryptSequence_eq (cs : Bool) (rand : Nat → Nat) (st : PassState) (gv : GlobalVariable) :
    (decryptSequence cs rand st gv).1
      = { id := st.nextId, opcode := Opcode.alloca 8
          operands := [getInt32 ((getAsCString gv.initializer).length + 1)]
          isVolatile := false } ::
        (decryptLoop cs rand st.nextId { st with nextId := st.nextId + 1 } 0
          (getAsCString gv.initializer)).1 ++
        [{ id := st.nextId + 1 + 3 * (getAsCString gv.initializer).length
           opcode := Opcode.getelementptr
           operands := [Value.inst st.nextId, getIndex (getAsCString gv.initializer).length]
           isVolatile := false },
         { id := st.nextId + 1 + 3 * (getAsCString gv.initializer).length + 1
           opcode := Opcode.store
           operands := [Value.constInt 8 0,
             Value.inst (st.nextId + 1 + 3 * (getAsCString gv.initializer).length)]
           isVolatile := true }] := by
  simp only [decryptSequence, decryptLoop_state]

theorem decryptSequence_xors (cs : Bool) (rand : Nat → Nat) (st : PassState)
    (gv : GlobalVariable) :
    (decryptSequence cs rand st gv).1.filter (fun x => decide (x.opcode = Opcode.xor))
      = (decryptLoop cs rand st.nextId { st with nextId := st.nextId + 1 } 0
          (getAsCString gv.initializer)).1.filter (fun x => decide (x.opcode = Opcode.xor)) := by
  rw [decryptSequence_eq]
  simp [List.filter_cons]

theorem decryptSequence_stores (cs : Bool) (rand : Nat → Nat) (st : PassState)
    (gv : GlobalVariable) :
    (decryptSequence cs rand st gv).1.filter (fun x => decide (x.opcode = Opcode.store))
      = (decryptLoop cs rand st.nextId { st with nextId := st.nextId + 1 } 0
          (getAsCString gv.initializer)).1.filter (fun x => decide (x.opcode = Opcode.store)) ++
        [{ id := st.nextId + 1 + 3 * (getAsCString gv.initializer).length + 1
           opcode := Opcode.store
           operands := [Value.constInt 8 0,
             Value.inst (st.nextId + 1 + 3 * (getAsCString gv.initializer).length)]
           isVolatile := true }] := by
  rw [decryptSequence_eq]
  simp [List.filter_cons]

end StringObfuscation

/-- C1. Decryption correctness: at every use site (the instruction sequence
`decryptSequence` inserts for a candidate `gv`), for every position `i` of the
literal and every random source, the `i`-th exclusive-or instruction has two
8-bit immediates `ciphertext` and `key`, where `key` is `rand() % 254 + 1` for
the `i`-th draw, and `ciphertext XOR key` is the `i`-th byte of the literal;
and the last store of the sequence is a volatile store of the 8-bit zero. -/
theorem decryption_correct (charSigned : Bool) (rand : Nat → Nat) (st : PassState)
    (gv : GlobalVariable) (i : Nat)
    (hi : i < (StringObfuscation.getAsCString gv.initializer).length) :
    (∃ ciphertext key xorId : Nat,
      ((StringObfuscation.decryptSequence charSigned rand st gv).1.filter
          (fun x => decide (x.opcode = Opcode.xor)))[i]?
        = some { id := xorId, opcode := Opcode.xor
                 operands := [Value.constInt 8 ciphertext, Value.constInt 8 key]
                 isVolatile := false } ∧
      key = rand (st.randCalls + i) % 254 + 1 ∧
      ciphertext < 256 ∧ key < 256 ∧
      ciphertext ^^^ key = (StringObfuscation.getAsCString gv.initializer)[i] % 256) ∧
    (∃ (storeId : Nat) (pointer : Value),
      ((StringObfuscation.decryptSequence charSigned rand st gv).1.filter
          (fun x => decide (x.opcode = Opcode.store))).getLast?
        = some { id := storeId, opcode := Opcode.store
                 operands := [Value.constInt 8 0, pointer], isVolatile := true }) := by
  constructor
  · have hK : rand (st.randCalls + i) % 254 + 1 < 256 := by omega
    have hc : ((StringObfuscation.getAsCString gv.initializer)[i] % 256) < 256 :=
      Nat.mod_lt _ (by norm_num)
    refine ⟨((StringObfuscation.getAsCString gv.initializer)[i] % 256)
        ^^^ (rand (st.randCalls + i) % 254 + 1),
      rand (st.randCalls + i) % 254 + 1, st.nextId + 1 + 3 * i, ?_, rfl, ?_, hK, ?_⟩
    · rw [StringObfuscation.decryptSequence_xors, StringObfuscation.decryptLoop_xors,
        List.getElem?_eq_getElem hi]
      simp only [Option.some_bind, StringObfuscation.decryptByte, List.getElem?_cons_zero,
        StringObfuscation.getInt8, Nat.zero_add]
      rw [cipher_immediate, toInt8_emod, Nat.mod_eq_of_lt hK]
    · exact Nat.xor_lt_two_pow (n := 8) hc hK
    · rw [Nat.xor_cancel_right]
  · exact ⟨_, _, by rw [StringObfuscation.decryptSequence_stores, List.getLast?_concat]⟩

/-- C1 (witness). The literal `"abc"` at position 1: the second exclusive-or
instruction decrypts to the byte `0x62`; and the stores of the whole sequence
write the bytes `0x61, 0x62, 0x63, 0x00` at offsets 0 to 3. -/
theorem decryption_correct_witness :
    bufferWrites (StringObfuscation.decryptSequence true Example.randFive ⟨0, 1⟩ Example.abc).1
      = [(some 0, some 0x61), (some 1, some 0x62), (some 2, some 0x63), (some 3, some 0)] ∧
    1 < (StringObfuscation.getAsCString Example.abc.initializer).length ∧
    (∃ ciphertext key xorId : Nat,
      ((StringObfuscation.decryptSequence true Example.randFive ⟨0, 1⟩ Example.abc).1.filter
          (fun x => decide (x.opcode = Opcode.xor)))[1]?
        = some { id := xorId, opcode := Opcode.xor
                 operands := [Value.constInt 8 ciphertext, Value.constInt 8 key]
                 isVolatile := false } ∧
      key = Example.randFive (0 + 1) % 254 + 1 ∧
      ciphertext < 256 ∧ key < 256 ∧
      ciphertext ^^^ key = 0x62 % 256) ∧
    (∃ (storeId : Nat) (pointer : Value),
      ((StringObfuscation.decryptSequence true Example.randFive ⟨0, 1⟩ Example.abc).1.filter
          (fun x => decide (x.opcode = Opcode.store))).getLast?
        = some { id := storeId, opcode := Opcode.store
                 operands := [Value.constInt 8 0, pointer], isVolatile := true }) :=
  ⟨by decide, by decide,
    decryption_correct true Example.randFive ⟨0, 1⟩ Example.abc 1 (by decide)⟩

/-- C3 (failing input). On the module of `"hi"[i]`, the literal `.str` is a
discovery candidate, the pass substitutes the operand of the load and erases
the literal, but the `getelementptr` instruction still has the erased global
as its pointer operand: an operand refers to a candidate after the pass. -/
theorem string_pass_leaves_dangling_operand :
    StringObfuscation.discover [] Example.indexedUse.globals = [Example.hi] ∧
    (StringObfuscation.runOnModule true Example.randFive 0 StringObfuscation.Pass.new
      Example.indexedUse).module.globals = [] ∧
    (StringObfuscation.runOnModule true Example.randFive 0 StringObfuscation.Pass.new
      Example.indexedUse).module.hasOperandReferringTo Example.hi.addr = true ∧
    ((StringObfuscation.runOnModule true Example.randFive 0 StringObfuscation.Pass.new
      Example.indexedUse).module.allInsts)[0]?
      = some { id := 1, opcode := Opcode.getelementptr
               operands := [Value.global 0, Value.constInt 64 0, Value.other 0]
               isVolatile := false } := by
  decide

/-- For contrast with the failing input of C3: on the module of
`return "hi";`, where the only use of the literal is a constant
`getelementptr` expression, the pass substitutes the buffer for it, erases the
literal, and no operand refers to the literal afterwards. -/
theorem string_pass_rewrites_constant_expression_use :
    (StringObfuscation.runOnModule true Example.randFive 0 StringObfuscation.Pass.new
      Example.returnsLiteral).module.globals = [] ∧
    (StringObfuscation.runOnModule true Example.randFive 0 StringObfuscation.Pass.new
      Example.returnsLiteral).module.hasOperandReferringTo Example.hi.addr = false ∧
    ((StringObfuscation.runOnModule true Example.randFive 0 StringObfuscation.Pass.new
      Example.returnsLiteral).module.allInsts).getLast?
      = some { id := 1, opcode := Opcode.ret, operands := [Value.inst 2]
               isVolatile := false } := by
  decide

namespace StringObfuscation

theorem decryptLoop_mem (cs : Bool) (rand : Nat → Nat) (buf : Nat) (l : List Nat) :
    ∀ (st : PassState) (i0 : Nat), ∀ j ∈ (decryptLoop cs rand buf st i0 l).1,
      j.opcode.isTerminator = false ∧ st.nextId ≤ j.id := by
  induction l with
  | nil => intro st i0 j hj; simp [decryptLoop] at hj
  | cons c rest ih =>
    intro st i0 j hj
    simp only [decryptLoop, List.mem_append] at hj
    rcases hj with hj | hj
    · simp only [decryptByte, List.mem_cons, List.mem_singleton, List.not_mem_nil,
        or_false] at hj
      rcases hj with rfl | rfl | rfl
      · exact ⟨rfl, le_refl _⟩
      · exact ⟨rfl, Nat.le_add_right _ _⟩
      · exact ⟨rfl, Nat.le_add_right _ _⟩
    · obtain ⟨h1, h2⟩ := ih _ _ j hj
      refine ⟨h1, le_trans ?_ h2⟩
      show st.nextId ≤ st.nextId + 3
      omega

theorem decryptSequence_mem (cs : Bool) (rand : Nat → Nat) (st : PassState)
    (gv : GlobalVariable) :
    ∀ j ∈ (decryptSequence cs rand st gv).1,
      j.opcode.isTerminator = false ∧ st.nextId ≤ j.id := by
  intro j hj
  rw [decryptSequence_eq] at hj
  simp only [List.cons_append, List.mem_cons, List.mem_append, List.mem_singleton,
    List.not_mem_nil, or_false] at hj
  rcases hj with rfl | hj | rfl | rfl
  · exact ⟨rfl, le_refl _⟩
  · obtain ⟨h1, h2⟩ := decryptLoop_mem cs rand st.nextId _ _ _ j hj
    exact ⟨h1, le_trans (Nat.le_succ _) h2⟩
  · exact ⟨rfl, by show st.nextId ≤ st.nextId + 1 + 3 * _; omega⟩
  · exact ⟨rfl, by show st.nextId ≤ st.nextId + 1 + 3 * _ + 1; omega⟩

theorem decryptSequence_nextId (cs : Bool) (rand : Nat → Nat) (st : PassState)
    (gv : GlobalVariable) :
    st.nextId ≤ (decryptSequence cs rand st gv).2.2.nextId := by
  simp only [decryptSequence, decryptLoop_state]
  omega

theorem useInv_init (st : PassState) (I : Instruction) :
    UseInv st I { inserted := [], I := I, st := st } :=
  ⟨rfl, rfl, rfl, rfl, le_refl _, by simp⟩

/-- One step of the operand loop keeps the invariant. -/
theorem rewriteUse_inv (cs : Bool) (rand : Nat → Nat) (ss : List GlobalVariable)
    (before after : List Instruction) (st0 : PassState) (I0 : Instruction) (s : UseState)
    (k : Nat) (h : UseInv st0 I0 s) :
    UseInv st0 I0 (rewriteUse cs rand ss before after s k) := by
  unfold rewriteUse
  split
  · exact h
  · split
    · split
      · obtain ⟨h1, h2, h3, h4, h5, h6⟩ := h
        refine ⟨h1, h2, ?_, h4, ?_, ?_⟩
        · simpa using h3
        · exact le_trans h5 (decryptSequence_nextId cs rand s.st _)
        · intro j hj
          rcases List.mem_append.1 hj with hj | hj
          · exact h6 j hj
          · obtain ⟨a, b⟩ := decryptSequence_mem cs rand s.st _ j hj
            exact ⟨a, le_trans h5 b⟩
      · exact h
    · exact h

theorem foldl_rewriteUse_inv (cs : Bool) (rand : Nat → Nat) (ss : List GlobalVariable)
    (before after : List Instruction) (st0 : PassState) (I0 : Instruction) (ks : List Nat) :
    ∀ s : UseState, UseInv st0 I0 s →
      UseInv st0 I0 (ks.foldl (rewriteUse cs rand ss before after) s) := by
  induction ks with
  | nil => intro s h; exact h
  | cons k rest ih =>
    intro s h
    exact ih _ (rewriteUse_inv cs rand ss before after st0 I0 s k h)

theorem operandLoop_inv (cs : Bool) (rand : Nat → Nat) (ss : List GlobalVariable)
    (before after : List Instruction) (st : PassState) (I : Instruction) :
    UseInv st I (operandLoop cs rand ss before after st I) :=
  foldl_rewriteUse_inv cs rand ss before after st I _ _ (useInv_init st I)

/-- The output of the instruction loop: what was already done, followed, for
each instruction in order, by what the operand loop inserted before it and
the instruction as the operand loop left it. -/
theorem instLoop_eq (cs : Bool) (rand : Nat → Nat) (ss : List GlobalVariable)
    (before after : List Instruction) (insts : List Instruction) :
    ∀ (st : PassState) (done : List Instruction),
      ∃ rs : List UseState,
        (instLoop cs rand ss before after st done insts).1
          = done ++ rs.flatMap (fun s => s.inserted ++ [s.I]) ∧
        st.nextId ≤ (instLoop cs rand ss before after st done insts).2.nextId ∧
        List.Forall₂ (fun I s => ∃ (bef aft : List Instruction) (st' : PassState),
          st.nextId ≤ st'.nextId ∧ s = operandLoop cs rand ss bef aft st' I) insts rs := by
  induction insts with
  | nil => intro st done; exact ⟨[], by simp [instLoop], le_refl _, List.Forall₂.nil⟩
  | cons I rest ih =>
    intro st done
    have hinv := operandLoop_inv cs rand ss (before ++ done) (rest ++ after) st I
    obtain ⟨rs, hout, hle, hall⟩ :=
      ih (operandLoop cs rand ss (before ++ done) (rest ++ after) st I).st
        (done ++ (operandLoop cs rand ss (before ++ done) (rest ++ after) st I).inserted
          ++ [(operandLoop cs rand ss (before ++ done) (rest ++ after) st I).I])
    refine ⟨operandLoop cs rand ss (before ++ done) (rest ++ after) st I :: rs, ?_, ?_, ?_⟩
    · show (instLoop cs rand ss before after
          (operandLoop cs rand ss (before ++ done) (rest ++ after) st I).st
          (done ++ (operandLoop cs rand ss (before ++ done) (rest ++ after) st I).inserted
            ++ [(operandLoop cs rand ss (before ++ done) (rest ++ after) st I).I]) rest).1 = _
      rw [hout]
      simp only [List.flatMap_cons, List.append_assoc]
    · exact le_trans hinv.2.2.2.2.1 hle
    · refine List.Forall₂.cons ⟨_, _, st, le_refl _, rfl⟩ ?_
      refine List.Forall₂.imp ?_ hall
      intro I' s' ⟨bef, aft, st', h1, h2⟩
      exact ⟨bef, aft, st', le_trans hinv.2.2.2.2.1 h1, h2⟩

end StringObfuscation

namespace StringObfuscation

/-- The output of the block loop: the blocks already done, followed by one
block for each input block, which is the instruction loop run on it. -/
theorem blockLoop_eq (cs : Bool) (rand : Nat → Nat) (ss : List GlobalVariable)
    (Bs : List BasicBlock) :
    ∀ (st : PassState) (done : List BasicBlock),
      ∃ tail : List BasicBlock,
        (blockLoop cs rand ss st done Bs).1 = done ++ tail ∧
        st.nextId ≤ (blockLoop cs rand ss st done Bs).2.nextId ∧
        ∀ b : Nat, ∃ (bef aft : List Instruction) (st' : PassState),
          st.nextId ≤ st'.nextId ∧
          tail[b]? = Bs[b]?.map
            (fun B => { insts := (instLoop cs rand ss bef aft st' [] B.insts).1 }) := by
  induction Bs with
  | nil =>
    intro st done
    exact ⟨[], by simp [blockLoop], le_refl _, fun b => ⟨[], [], st, le_refl _, by simp⟩⟩
  | cons B rest ih =>
    intro st done
    obtain ⟨rs, _, hmono, _⟩ := instLoop_eq cs rand ss (done.flatMap fun b => b.insts)
      (rest.flatMap fun b => b.insts) B.insts st []
    obtain ⟨tail, hout, hle, hall⟩ := ih
      (instLoop cs rand ss (done.flatMap fun b => b.insts) (rest.flatMap fun b => b.insts)
        st [] B.insts).2
      (done ++ [{ insts := (instLoop cs rand ss (done.flatMap fun b => b.insts)
        (rest.flatMap fun b => b.insts) st [] B.insts).1 }])
    refine ⟨{ insts := (instLoop cs rand ss (done.flatMap fun b => b.insts)
        (rest.flatMap fun b => b.insts) st [] B.insts).1 } :: tail, ?_, ?_, ?_⟩
    · show (blockLoop cs rand ss _ (done ++ [_]) rest).1 = _
      rw [hout]
      simp only [List.append_assoc, List.singleton_append]
    · exact le_trans hmono hle
    · intro b
      cases b with
      | zero =>
        exact ⟨done.flatMap fun b => b.insts, rest.flatMap fun b => b.insts, st, le_refl _,
          by simp⟩
      | succ b =>
        obtain ⟨bef, aft, st', h1, h2⟩ := hall b
        exact ⟨bef, aft, st', le_trans hmono h1, by simpa using h2⟩

theorem rewrite_functionLoop_blockAt (cs : Bool) (rand : Nat → Nat) (ss : List GlobalVariable)
    (Fs : List Function) :
    ∀ (st : PassState) (f b : Nat), ∃ (bef aft : List Instruction) (st' : PassState),
      st.nextId ≤ st'.nextId ∧
      blockAt (functionLoop cs rand ss st Fs).1 f b
        = (blockAt Fs f b).map
            (fun B => { insts := (instLoop cs rand ss bef aft st' [] B.insts).1 }) := by
  induction Fs with
  | nil => intro st f b; exact ⟨[], [], st, le_refl _, by simp [functionLoop, blockAt]⟩
  | cons F rest ih =>
    intro st f b
    obtain ⟨tail, hout, hle, hall⟩ := blockLoop_eq cs rand ss F.blocks st []
    cases f with
    | zero =>
      obtain ⟨bef, aft, st', h1, h2⟩ := hall b
      refine ⟨bef, aft, st', h1, ?_⟩
      simp only [functionLoop, blockAt, List.getElem?_cons_zero, hout, List.nil_append]
      exact h2
    | succ f =>
      obtain ⟨bef, aft, st', h1, h2⟩ := ih (blockLoop cs rand ss st [] F.blocks).2 f b
      refine ⟨bef, aft, st', le_trans hle h1, ?_⟩
      simpa [functionLoop, blockAt] using h2

theorem rewrite_runOnModule_blockAt (cs : Bool) (rand : Nat → Nat) (calls : Nat) (self : Pass)
    (M : Module) (f b : Nat) :
    ∃ (bef aft : List Instruction) (st' : PassState), M.freshId ≤ st'.nextId ∧
      blockAt (runOnModule cs rand calls self M).module.functions f b
        = (blockAt M.functions f b).map
            (fun B => { insts := (instLoop cs rand (discover self.staticStrings M.globals)
              bef aft st' [] B.insts).1 }) :=
  rewrite_functionLoop_blockAt cs rand (discover self.staticStrings M.globals) M.functions
    { randCalls := calls, nextId := M.freshId } f b

/-- The output of the operand loops written as a spliced list. -/
theorem flatMap_eq_spliced (rs : List UseState) :
    rs.flatMap (fun s => s.inserted ++ [s.I])
      = (List.zipWith (fun grp i => grp ++ [i]) (rs.map fun s => s.inserted)
          (rs.map fun s => s.I)).flatten := by
  induction rs with
  | nil => rfl
  | cons s rest ih => simp [List.flatMap_cons, ih]

end StringObfuscation

theorem wellTerminated_congr {B B' : BasicBlock}
    (h1 : (B'.insts.filter (fun i => i.opcode.isTerminator)).length
      = (B.insts.filter (fun i => i.opcode.isTerminator)).length)
    (h2 : B'.insts.getLast?.map (fun i => i.opcode) = B.insts.getLast?.map (fun i => i.opcode)) :
    wellTerminated B' = wellTerminated B := by
  have h3 : B'.insts.getLast?.map (fun i => i.opcode.isTerminator)
      = B.insts.getLast?.map (fun i => i.opcode.isTerminator) := by
    have := congrArg (Option.map Opcode.isTerminator) h2
    simpa [Option.map_map, Function.comp_def] using this
  unfold wellTerminated
  rw [h1, h3]

namespace StringObfuscation

/-- What the instruction loop guarantees about the states of its operand
loops: each keeps identity and operation kind of its instruction, and inserts
only new non-terminator instructions. -/
theorem forall₂_operandLoop (cs : Bool) (rand : Nat → Nat) (ss : List GlobalVariable)
    (st : PassState) {insts : List Instruction} {rs : List UseState}
    (h : List.Forall₂ (fun I s => ∃ (bef aft : List Instruction) (st' : PassState),
      st.nextId ≤ st'.nextId ∧ s = operandLoop cs rand ss bef aft st' I) insts rs) :
    rs.map (fun s => (s.I.id, s.I.opcode)) = insts.map (fun i => (i.id, i.opcode)) ∧
    ∀ s ∈ rs, ∀ j ∈ s.inserted, j.opcode.isTerminator = false ∧ st.nextId ≤ j.id := by
  induction h with
  | nil => exact ⟨rfl, by simp⟩
  | @cons I0 s0 _ _ hhead _ ih =>
    obtain ⟨bef, aft, st', hle, rfl⟩ := hhead
    have hinv := operandLoop_inv cs rand ss bef aft st' I0
    refine ⟨?_, ?_⟩
    · simp only [List.map_cons, ih.1, hinv.1, hinv.2.1]
    · intro s hs j hj
      rcases List.mem_cons.1 hs with rfl | hs
      · obtain ⟨a, b⟩ := hinv.2.2.2.2.2 j hj
        exact ⟨a, le_trans hle b⟩
      · exact ih.2 s hs j hj

/-- The instruction loop of the string pass keeps the number of terminators of
a block, and identity and operation kind of its last instruction. -/
theorem instLoop_terminators (cs : Bool) (rand : Nat → Nat) (ss : List GlobalVariable)
    (bef aft : List Instruction) (st : PassState) (insts : List Instruction) :
    ((instLoop cs rand ss bef aft st [] insts).1.filter
        (fun i => i.opcode.isTerminator)).length
      = (insts.filter (fun i => i.opcode.isTerminator)).length ∧
    (instLoop cs rand ss bef aft st [] insts).1.getLast?.map (fun i => (i.id, i.opcode))
      = insts.getLast?.map (fun i => (i.id, i.opcode)) := by
  obtain ⟨rs, hout, _, hall⟩ := instLoop_eq cs rand ss bef aft insts st []
  obtain ⟨hkey, hnew⟩ := forall₂_operandLoop cs rand ss st hall
  rw [List.nil_append, flatMap_eq_spliced] at hout
  have hop : (rs.map fun s => s.I).map (fun i => i.opcode) = insts.map (fun i => i.opcode) := by
    have := congrArg (List.map Prod.snd) hkey
    simpa [List.map_map, Function.comp_def] using this
  constructor
  · rw [hout, Junk.filter_spliced]
    · simp only [List.length_map, List.take_length]
      have e : ∀ l : List Instruction,
          (l.filter (fun i => i.opcode.isTerminator)).length
            = ((l.map (fun i => i.opcode)).filter Opcode.isTerminator).length := by
        intro l
        rw [List.filter_map, List.length_map]
        rfl
      have e2 : (rs.map fun s => s.I).take rs.length = rs.map fun s => s.I := by
        rw [List.take_of_length_le]
        simp
      rw [e2, e, e insts, hop]
    · intro grp hgrp j hj
      obtain ⟨s, hs, rfl⟩ := List.mem_map.1 hgrp
      exact (hnew s hs j hj).1
  · rw [hout, Junk.getLast?_spliced _ _ (by simp), ← List.getLast?_map, ← List.getLast?_map,
      List.map_map]
    exact congrArg List.getLast? hkey

end StringObfuscation

/-- C8. Terminator invariant: for every module in which each block has exactly
one terminator, as its last instruction, (1) after the junk pass each block
still has exactly one terminator as its last instruction, and the last
instruction is the original last instruction; (2) after the string pass each
block still has exactly one terminator as its last instruction, and the last
instruction has the identity and the operation kind of the original last
instruction. -/
theorem terminator_invariant (charSigned : Bool) (rand : Nat → Nat) (calls : Nat)
    (self : StringObfuscation.Pass) (M : Module)
    (h : ∀ F ∈ M.functions, ∀ B ∈ F.blocks, wellTerminated B = true) :
    Blockwise
      (fun B B' => wellTerminated B' = true ∧ B'.insts.getLast? = B.insts.getLast?)
      M (Junk.runOnModule rand calls M).2.1 ∧
    Blockwise
      (fun B B' => wellTerminated B' = true ∧
        B'.insts.getLast?.map (fun i => (i.id, i.opcode))
          = B.insts.getLast?.map (fun i => (i.id, i.opcode)))
      M (StringObfuscation.runOnModule charSigned rand calls self M).module := by
  constructor
  · apply blockwise_of_map
    intro f b
    obtain ⟨st', _, hb⟩ := Junk.runOnModule_blockAt rand calls M f b
    refine ⟨_, hb, ?_⟩
    intro B hB
    obtain ⟨F, hF, hBF⟩ := mem_block_of_blockAt hB
    obtain ⟨groups, hlen, hout, hnew⟩ := Junk.instLoop_groups rand (Junk.newGlobal M.freshId)
      B.insts { randCalls := st'.randCalls + 1, nextId := st'.nextId }
      (getInt32 (rand st'.randCalls))
    have hlast : (Junk.runOnBlock rand (Junk.newGlobal M.freshId) st' B).1.insts.getLast?
        = B.insts.getLast? := by
      show (Junk.instLoop rand (Junk.newGlobal M.freshId)
        { randCalls := st'.randCalls + 1, nextId := st'.nextId }
        (getInt32 (rand st'.randCalls)) B.insts).1.getLast? = _
      rw [hout, Junk.getLast?_spliced groups B.insts hlen]
    have hfil : (Junk.runOnBlock rand (Junk.newGlobal M.freshId) st' B).1.insts.filter
        (fun i => i.opcode.isTerminator) = B.insts.filter (fun i => i.opcode.isTerminator) := by
      show (Junk.instLoop rand (Junk.newGlobal M.freshId)
        { randCalls := st'.randCalls + 1, nextId := st'.nextId }
        (getInt32 (rand st'.randCalls)) B.insts).1.filter _ = _
      rw [hout, Junk.filter_spliced _ groups B.insts
        (fun grp hgrp j hj => (hnew grp hgrp j hj).2.1), hlen, List.take_length]
    refine ⟨?_, hlast⟩
    have e : wellTerminated (Junk.runOnBlock rand (Junk.newGlobal M.freshId) st' B).1
        = wellTerminated B := wellTerminated_congr (by rw [hfil]) (by rw [hlast])
    rw [e]
    exact h F hF B hBF
  · apply blockwise_of_map
    intro f b
    obtain ⟨bef, aft, st', _, hb⟩ :=
      StringObfuscation.rewrite_runOnModule_blockAt charSigned rand calls self M f b
    refine ⟨_, hb, ?_⟩
    intro B hB
    obtain ⟨F, hF, hBF⟩ := mem_block_of_blockAt hB
    obtain ⟨h1, h2⟩ := StringObfuscation.instLoop_terminators charSigned rand
      (StringObfuscation.discover self.staticStrings M.globals) bef aft st' B.insts
    refine ⟨?_, h2⟩
    have h3 := congrArg (Option.map Prod.snd) h2
    simp only [Option.map_map, Function.comp_def] at h3
    have e : wellTerminated { insts := (StringObfuscation.instLoop charSigned rand
        (StringObfuscation.discover self.staticStrings M.globals) bef aft st' [] B.insts).1 }
        = wellTerminated B := wellTerminated_congr h1 h3
    rw [e]
    exact h F hF B hBF

/-- C8 (witness). The module of `"hi"[i]`, whose single block ends in its only
terminator `ret`. -/
theorem terminator_invariant_witness :
    (∀ F ∈ Example.indexedUse.functions, ∀ B ∈ F.blocks, wellTerminated B = true) ∧
    Blockwise
      (fun B B' => wellTerminated B' = true ∧ B'.insts.getLast? = B.insts.getLast?)
      Example.indexedUse (Junk.runOnModule Example.randFive 0 Example.indexedUse).2.1 ∧
    Blockwise
      (fun B B' => wellTerminated B' = true ∧
        B'.insts.getLast?.map (fun i => (i.id, i.opcode))
          = B.insts.getLast?.map (fun i => (i.id, i.opcode)))
      Example.indexedUse
      (StringObfuscation.runOnModule true Example.randFive 0 StringObfuscation.Pass.new
        Example.indexedUse).module :=
  ⟨by decide,
    terminator_invariant true Example.randFive 0 StringObfuscation.Pass.new Example.indexedUse
      (by decide)⟩

/-! ## The string pass without candidates, and the reaper -/

namespace StringObfuscation

theorem rewriteUse_nil (cs : Bool) (rand : Nat → Nat) (before after : List Instruction)
    (s : UseState) (k : Nat) : rewriteUse cs rand [] before after s k = s := by
  unfold rewriteUse
  split
  · rfl
  · split
    · simp
    · rfl

theorem foldl_rewriteUse_nil (cs : Bool) (rand : Nat → Nat) (before after : List Instruction)
    (ks : List Nat) : ∀ s : UseState, ks.foldl (rewriteUse cs rand [] before after) s = s := by
  induction ks with
  | nil => intro s; rfl
  | cons k rest ih => intro s; rw [List.foldl_cons, rewriteUse_nil, ih]

theorem operandLoop_nil (cs : Bool) (rand : Nat → Nat) (before after : List Instruction)
    (st : PassState) (I : Instruction) :
    operandLoop cs rand [] before after st I = { inserted := [], I := I, st := st } :=
  foldl_rewriteUse_nil cs rand before after _ _

theorem instLoop_nil (cs : Bool) (rand : Nat → Nat) (before after : List Instruction)
    (insts : List Instruction) :
    ∀ (st : PassState) (done : List Instruction),
      instLoop cs rand [] before after st done insts = (done ++ insts, st) := by
  induction insts with
  | nil => intro st done; simp [instLoop]
  | cons I rest ih =>
    intro st done
    simp only [instLoop, operandLoop_nil, ih]
    simp

theorem blockLoop_nil (cs : Bool) (rand : Nat → Nat) (Bs : List BasicBlock) :
    ∀ (st : PassState) (done : List BasicBlock),
      blockLoop cs rand [] st done Bs = (done ++ Bs, st) := by
  induction Bs with
  | nil => intro st done; simp [blockLoop]
  | cons B rest ih =>
    intro st done
    simp only [blockLoop, instLoop_nil, ih]
    simp

theorem functionLoop_nil (cs : Bool) (rand : Nat → Nat) (Fs : List Function) :
    ∀ st : PassState, functionLoop cs rand [] st Fs = (Fs, st) := by
  induction Fs with
  | nil => intro st; rfl
  | cons F rest ih =>
    intro st
    simp only [functionLoop, blockLoop_nil, ih]
    simp

/-- When the discovery loop selects nothing, the pass leaves the module and
the random source as they are. -/
theorem runOnModule_of_no_candidates (cs : Bool) (rand : Nat → Nat) (calls : Nat) (self : Pass)
    (M : Module) (h : discover self.staticStrings M.globals = []) :
    (runOnModule cs rand calls self M).module = M ∧
    (runOnModule cs rand calls self M).randCalls = calls := by
  simp only [runOnModule, h, functionLoop_nil, List.reverse_nil, reapLoop, and_self]

/-- The reaping loop keeps exactly the globals whose address is the address of
no member of the stack. -/
theorem reapLoop_eq_filter (stack : List GlobalVariable) :
    ∀ globals : List GlobalVariable,
      reapLoop stack globals
        = globals.filter (fun g => stack.all (fun c => g.addr != c.addr)) := by
  induction stack with
  | nil => intro globals; simp [reapLoop]
  | cons gv rest ih =>
    intro globals
    simp only [reapLoop, eraseFromParent, ih, List.filter_filter, List.all_cons]
    congr 1
    funext g
    rw [Bool.and_comm]

end StringObfuscation

/-- C13 (counterexample). On the module with the single instruction `ret` and
no global, the string pass discovers no candidate and leaves the module
exactly as it was, yet it returns `true`. -/
theorem string_pass_returns_true_unchanged :
    StringObfuscation.discover StringObfuscation.Pass.new.staticStrings
      Example.retModule.globals = [] ∧
    (StringObfuscation.runOnModule true Example.randFive 0 StringObfuscation.Pass.new
      Example.retModule).module = Example.retModule ∧
    (StringObfuscation.runOnModule true Example.randFive 0 StringObfuscation.Pass.new
      Example.retModule).changed = true := by
  decide

/-- C13 (amended). The entry point of the string pass returns `true` for every
module, whether or not it changed it; in particular, for a module with no
discovery candidates it leaves the module unchanged and returns `true`. -/
theorem string_pass_returns_true (charSigned : Bool) (rand : Nat → Nat) (calls : Nat)
    (self : StringObfuscation.Pass) (M : Module) :
    (StringObfuscation.runOnModule charSigned rand calls self M).changed = true ∧
    (StringObfuscation.discover self.staticStrings M.globals = [] →
      (StringObfuscation.runOnModule charSigned rand calls self M).module = M) :=
  ⟨rfl, fun h => (StringObfuscation.runOnModule_of_no_candidates charSigned rand calls self M h).1⟩

/-- C13 (witness). The module with the single instruction `ret`. -/
theorem string_pass_returns_true_witness :
    StringObfuscation.discover StringObfuscation.Pass.new.staticStrings
      Example.retModule.globals = [] ∧
    (StringObfuscation.runOnModule true Example.randFive 0 StringObfuscation.Pass.new
      Example.retModule).changed = true ∧
    (StringObfuscation.runOnModule true Example.randFive 0 StringObfuscation.Pass.new
      Example.retModule).module = Example.retModule :=
  ⟨by decide,
    (string_pass_returns_true true Example.randFive 0 StringObfuscation.Pass.new
      Example.retModule).1,
    (string_pass_returns_true true Example.randFive 0 StringObfuscation.Pass.new
      Example.retModule).2 (by decide)⟩

/-- C12. Dead global reaper: for a module whose globals have pairwise distinct
identities, the global list after the string pass is the original list with
exactly the discovered candidates removed: it is the sub-list, in the original
order, of the globals that are not candidates; every candidate is gone and
every other global is still present, unchanged. -/
theorem reaper_removes_exactly_candidates (charSigned : Bool) (rand : Nat → Nat) (calls : Nat)
    (M : Module) (hid : (M.globals.map (fun g => g.addr)).Nodup) :
    (StringObfuscation.runOnModule charSigned rand calls StringObfuscation.Pass.new M).module.globals
      = M.globals.filter (fun g => decide
          (g ∉ StringObfuscation.discover StringObfuscation.Pass.new.staticStrings M.globals)) ∧
    (∀ g ∈ StringObfuscation.discover StringObfuscation.Pass.new.staticStrings M.globals,
      g ∉ (StringObfuscation.runOnModule charSigned rand calls
        StringObfuscation.Pass.new M).module.globals) ∧
    (∀ g ∈ M.globals,
      g ∉ StringObfuscation.discover StringObfuscation.Pass.new.staticStrings M.globals →
      g ∈ (StringObfuscation.runOnModule charSigned rand calls
        StringObfuscation.Pass.new M).module.globals) := by
  have hcand : StringObfuscation.discover StringObfuscation.Pass.new.staticStrings M.globals
      = M.globals.filter Spec.isCandidateAmended := by
    rw [StringObfuscation.discover_eq_filter]; rfl
  have hmain : (StringObfuscation.runOnModule charSigned rand calls
      StringObfuscation.Pass.new M).module.globals
      = M.globals.filter (fun g => decide
          (g ∉ StringObfuscation.discover StringObfuscation.Pass.new.staticStrings M.globals)) := by
    show StringObfuscation.reapLoop _ M.globals = _
    rw [StringObfuscation.reapLoop_eq_filter]
    apply List.filter_congr
    intro g hg
    rw [Bool.eq_iff_iff]
    simp only [List.all_eq_true, List.mem_reverse, bne_iff_ne, ne_eq, decide_eq_true_eq]
    constructor
    · intro hall hmem
      exact hall g hmem rfl
    · intro hnot c hc heq
      have hcM : c ∈ M.globals := by
        rw [hcand] at hc
        exact (List.mem_filter.1 hc).1
      have := List.inj_on_of_nodup_map hid hg hcM heq
      exact hnot (this ▸ hc)
  refine ⟨hmain, ?_, ?_⟩
  · intro g hg hmem
    rw [hmain] at hmem
    have := (List.mem_filter.1 hmem).2
    simp only [decide_eq_true_eq] at this
    exact this hg
  · intro g hg hnot
    rw [hmain]
    exact List.mem_filter.2 ⟨hg, by simpa using hnot⟩

/-- C12 (witness). The module with the literal `.str` and the global
`counter`: after the pass only `counter` is left. -/
theorem reaper_removes_exactly_candidates_witness :
    (Example.literalAndCounter.globals.map (fun g => g.addr)).Nodup ∧
    (StringObfuscation.runOnModule true Example.randFive 0 StringObfuscation.Pass.new
      Example.literalAndCounter).module.globals = [Example.counter] ∧
    (StringObfuscation.runOnModule true Example.randFive 0 StringObfuscation.Pass.new
      Example.literalAndCounter).module.globals
      = Example.literalAndCounter.globals.filter (fun g => decide
          (g ∉ StringObfuscation.discover StringObfuscation.Pass.new.staticStrings
            Example.literalAndCounter.globals)) :=
  ⟨by decide, by decide,
    (reaper_removes_exactly_candidates true Example.randFive 0 Example.literalAndCounter
      (by decide)).1⟩

namespace StringObfuscation

/-- After a run of the pass no global of the module satisfies the discovery
predicate: every global that did has been erased. -/
theorem discover_after_run (cs : Bool) (rand : Nat → Nat) (calls : Nat) (self : Pass)
    (M : Module) :
    discover (runOnModule cs rand calls self M).pass.staticStrings
      (runOnModule cs rand calls self M).module.globals = [] := by
  show discover [] (reapLoop (discover self.staticStrings M.globals).reverse M.globals) = []
  rw [discover_eq_filter, reapLoop_eq_filter, discover_eq_filter, List.nil_append,
    List.filter_filter, List.filter_eq_nil_iff]
  intro g hg
  simp only [Bool.and_eq_true, List.all_eq_true, List.mem_reverse, List.mem_append,
    List.mem_filter, bne_iff_ne, ne_eq, not_and]
  intro hp hall
  exact hall g (Or.inr ⟨hg, hp⟩) rfl

end StringObfuscation

/-- C19. String pass idempotence: for every module and every random source,
the candidate list of the pass object is empty at the end of the first run and
at the end of the second; the second run, made on the output of the first,
discovers no candidate, draws no random value, and leaves the module (its
instructions, operands and globals) exactly as the first run left it. -/
theorem string_pass_idempotent (charSigned : Bool) (rand : Nat → Nat) (calls : Nat)
    (self : StringObfuscation.Pass) (M : Module) :
    (StringObfuscation.once charSigned rand calls self M).pass.staticStrings = [] ∧
    StringObfuscation.discover
      (StringObfuscation.once charSigned rand calls self M).pass.staticStrings
      (StringObfuscation.once charSigned rand calls self M).module.globals = [] ∧
    (StringObfuscation.twice charSigned rand calls self M).pass.staticStrings = [] ∧
    (StringObfuscation.twice charSigned rand calls self M).module
      = (StringObfuscation.once charSigned rand calls self M).module ∧
    (StringObfuscation.twice charSigned rand calls self M).randCalls
      = (StringObfuscation.once charSigned rand calls self M).randCalls := by
  have h := StringObfuscation.discover_after_run charSigned rand calls self M
  have h2 := StringObfuscation.runOnModule_of_no_candidates charSigned rand
    (StringObfuscation.once charSigned rand calls self M).randCalls
    (StringObfuscation.once charSigned rand calls self M).pass
    (StringObfuscation.once charSigned rand calls self M).module h
  exact ⟨rfl, h, rfl, h2.1, h2.2⟩

/-- C17. Key range: at every use site, for every position `i` of the literal
and every random source, the key `rand() % 254 + 1` of the `i`-th draw lies
in `1..254` (so it is neither `0` nor `0xFF`), it is the second immediate of
the `i`-th exclusive-or instruction, and the first immediate, the ciphertext
byte, differs from the plaintext byte `constStr[i]`. -/
theorem key_range (charSigned : Bool) (rand : Nat → Nat) (st : PassState)
    (gv : GlobalVariable) (i : Nat)
    (hi : i < (StringObfuscation.getAsCString gv.initializer).length) :
    1 ≤ rand (st.randCalls + i) % 254 + 1 ∧
    rand (st.randCalls + i) % 254 + 1 ≤ 254 ∧
    rand (st.randCalls + i) % 254 + 1 ≠ 0 ∧
    rand (st.randCalls + i) % 254 + 1 ≠ 0xFF ∧
    ∃ ciphertext xorId : Nat,
      ((StringObfuscation.decryptSequence charSigned rand st gv).1.filter
          (fun x => decide (x.opcode = Opcode.xor)))[i]?
        = some { id := xorId, opcode := Opcode.xor
                 operands := [Value.constInt 8 ciphertext,
                   Value.constInt 8 (rand (st.randCalls + i) % 254 + 1)]
                 isVolatile := false } ∧
      ciphertext ≠ (StringObfuscation.getAsCString gv.initializer)[i] % 256 := by
  have hK : rand (st.randCalls + i) % 254 + 1 < 256 := by omega
  refine ⟨by omega, by omega, by omega, by omega,
    ((StringObfuscation.getAsCString gv.initializer)[i] % 256)
      ^^^ (rand (st.randCalls + i) % 254 + 1), st.nextId + 1 + 3 * i, ?_, ?_⟩
  · rw [StringObfuscation.decryptSequence_xors, StringObfuscation.decryptLoop_xors,
      List.getElem?_eq_getElem hi]
    simp only [Option.some_bind, StringObfuscation.decryptByte, List.getElem?_cons_zero,
      StringObfuscation.getInt8, Nat.zero_add]
    rw [cipher_immediate, toInt8_emod, Nat.mod_eq_of_lt hK]
  · intro h
    have h2 := congrArg
      (fun x => ((StringObfuscation.getAsCString gv.initializer)[i] % 256) ^^^ x) h
    simp only [Nat.xor_cancel_left, Nat.xor_self] at h2
    omega

/-- C17 (witness). The literal `"abc"` at position 1, with a random source
that always returns 5: the key is 6. -/
theorem key_range_witness :
    1 < (StringObfuscation.getAsCString Example.abc.initializer).length ∧
    1 ≤ Example.randFive (0 + 1) % 254 + 1 ∧
    Example.randFive (0 + 1) % 254 + 1 ≤ 254 ∧
    Example.randFive (0 + 1) % 254 + 1 ≠ 0 ∧
    Example.randFive (0 + 1) % 254 + 1 ≠ 0xFF ∧
    ∃ ciphertext xorId : Nat,
      ((StringObfuscation.decryptSequence true Example.randFive ⟨0, 1⟩ Example.abc).1.filter
          (fun x => decide (x.opcode = Opcode.xor)))[1]?
        = some { id := xorId, opcode := Opcode.xor
                 operands := [Value.constInt 8 ciphertext,
                   Value.constInt 8 (Example.randFive (0 + 1) % 254 + 1)]
                 isVolatile := false } ∧
      ciphertext ≠ 0x62 % 256 :=
  ⟨by decide, key_range true Example.randFive ⟨0, 1⟩ Example.abc 1 (by decide)⟩

/-! ## Identities and stores of a decryption sequence -/

namespace StringObfuscation

theorem decryptLoop_ids (cs : Bool) (rand : Nat → Nat) (buf : Nat) (l : List Nat) :
    ∀ (st : PassState) (i0 : Nat),
      (decryptLoop cs rand buf st i0 l).1.map (fun x => x.id)
        = List.range' st.nextId (3 * l.length) := by
  induction l with
  | nil => intro st i0; simp [decryptLoop]
  | cons c rest ih =>
    intro st i0
    have e : 3 * (c :: rest).length = (3 * rest.length + 2) + 1 := by
      simp only [List.length_cons]; omega
    rw [e, List.range'_succ, List.range'_succ, List.range'_succ]
    simp only [decryptLoop, List.map_append, ih]
    simp only [decryptByte, List.map_cons, List.map_nil, List.cons_append, List.nil_append,
      Nat.add_assoc]

/-- The identities of the instructions of a decryption sequence are
consecutive, starting at the first unused identity. -/
theorem decryptSequence_ids (cs : Bool) (rand : Nat → Nat) (st : PassState)
    (gv : GlobalVariable) :
    (decryptSequence cs rand st gv).1.map (fun x => x.id)
      = List.range' st.nextId (3 * (getAsCString gv.initializer).length + 3) := by
  rw [decryptSequence_eq]
  have e : 3 * (getAsCString gv.initializer).length + 3
      = (2 + 3 * (getAsCString gv.initializer).length) + 1 := by omega
  rw [e, List.range'_succ, ← List.range'_append_1]
  simp only [List.cons_append, List.map_cons, List.map_append, decryptLoop_ids, List.map_nil,
    List.range'_succ, List.range'_zero, Nat.add_assoc]

end StringObfuscation

namespace StringObfuscation

end StringObfuscation

namespace Junk

end Junk

namespace StringObfuscation

theorem Evolved.refl (bound : Nat) (L : List Instruction) : Evolved bound L L := by
  induction L with
  | nil => exact Evolved.nil
  | cons I rest ih => exact Evolved.keep rfl rfl ih

theorem Evolved.append {bound : Nat} {L1 L1' L2 L2' : List Instruction}
    (h1 : Evolved bound L1 L1') (h2 : Evolved bound L2 L2') :
    Evolved bound (L1 ++ L2) (L1' ++ L2') := by
  induction h1 with
  | nil => exact h2
  | keep hid hbase _ ih => exact Evolved.keep hid hbase ih
  | insert hnew hbase _ ih => exact Evolved.insert hnew hbase ih

theorem Evolved.of_new {bound : Nat} (X : List Instruction)
    (h : ∀ x ∈ X, bound ≤ x.id ∧ globalBase x = none) : Evolved bound [] X := by
  induction X with
  | nil => exact Evolved.nil
  | cons x rest ih =>
    exact Evolved.insert (h x (List.mem_cons_self _ _)).1 (h x (List.mem_cons_self _ _)).2
      (ih (fun y hy => h y (List.mem_cons_of_mem _ hy)))

/-- Looking up the global base of an instruction by identity gives the same
answer in a later state of the list. -/
theorem Evolved.find_globalBase {bound : Nat} {L L' : List Instruction}
    (h : Evolved bound L L') (hL : ∀ i ∈ L, i.id < bound) (id : Nat) :
    (L'.find? (fun j => j.id == id)).bind globalBase
      = (L.find? (fun j => j.id == id)).bind globalBase := by
  induction h with
  | nil => rfl
  | @keep I I' L L' hid hbase _ ih =>
    have ih' := ih (fun i hi => hL i (List.mem_cons_of_mem _ hi))
    rw [List.find?_cons, List.find?_cons, hid]
    by_cases hI : (I.id == id) = true
    · simp only [hI, Option.some_bind, hbase]
    · simp only [hI, ih']
  | @insert j L L' hnew hbase _ ih =>
    have ih' := ih hL
    rw [List.find?_cons]
    by_cases hj : (j.id == id) = true
    · simp only [hj, Option.some_bind, hbase]
      have hnone : L.find? (fun j => j.id == id) = none := by
        rw [List.find?_eq_none]
        intro i hi
        have h1 := hL i hi
        have h2 : j.id = id := by simpa using hj
        simp only [beq_iff_eq]
        omega
      rw [hnone]
      rfl
    · simp only [hj, ih']

theorem baseAddr_inst (L : List Instruction) (id : Nat) :
    baseAddr L (Value.inst id) = (L.find? (fun j => j.id == id)).bind globalBase := by
  unfold baseAddr gepPointerOperand
  cases hfind : L.find? (fun j => j.id == id) with
  | none => simp only [hfind]; rfl
  | some j =>
    simp only [hfind, Option.some_bind, globalBase]
    by_cases hop : j.opcode = Opcode.getelementptr
    · simp only [hop, if_true]
    · simp only [hop, if_false]

theorem baseAddr_evolved {bound : Nat} {L L' : List Instruction}
    (h : Evolved bound L L') (hL : ∀ i ∈ L, i.id < bound) (arg : Value) :
    baseAddr L' arg = baseAddr L arg := by
  cases arg with
  | inst id => rw [baseAddr_inst, baseAddr_inst, h.find_globalBase hL]
  | constInt _ _ => rfl
  | global _ => rfl
  | gepExpr _ _ => rfl
  | castExpr _ => rfl
  | other _ => rfl

theorem candidateOf_evolved (ss : List GlobalVariable) {bound : Nat} {L L' : List Instruction}
    (h : Evolved bound L L') (hL : ∀ i ∈ L, i.id < bound) (arg : Value) :
    candidateOf ss L' arg = candidateOf ss L arg := by
  unfold candidateOf
  rw [baseAddr_evolved h hL]

/-- An operand based on a candidate is not itself the address of a global. -/
theorem candidateOf_ne_global (ss : List GlobalVariable) (L : List Instruction) (addr : Nat) :
    candidateOf ss L (Value.global addr) = none := rfl

/-- The body of the operand loop, read through `candidateOf`. -/
theorem rewriteUse_eq (cs : Bool) (rand : Nat → Nat) (ss : List GlobalVariable)
    (before after : List Instruction) (s : UseState) (k : Nat) :
    rewriteUse cs rand ss before after s k
      = match s.I.operands[k]? with
        | none => s
        | some arg =>
          match candidateOf ss (before ++ s.inserted ++ s.I :: after) arg with
          | some gv =>
            { inserted := s.inserted ++ (decryptSequence cs rand s.st gv).1
              I := { s.I with operands := s.I.operands.set k (Value.inst s.st.nextId) }
              st := (decryptSequence cs rand s.st gv).2.2 }
          | none => s := by
  unfold rewriteUse candidateOf baseAddr
  cases s.I.operands[k]? with
  | none => rfl
  | some arg =>
    simp only
    cases hp : gepPointerOperand (before ++ s.inserted ++ s.I :: after) arg with
    | none => rfl
    | some v =>
      cases v with
      | global addr =>
        simp only
        cases ss.find? (fun g => g.addr == addr) <;> rfl
      | constInt _ _ => rfl
      | inst _ => rfl
      | gepExpr _ _ => rfl
      | castExpr _ => rfl
      | other _ => rfl

end StringObfuscation

namespace StringObfuscation

theorem decryptLoop_globalBase (cs : Bool) (rand : Nat → Nat) (buf : Nat) (l : List Nat) :
    ∀ (st : PassState) (i0 : Nat), ∀ j ∈ (decryptLoop cs rand buf st i0 l).1,
      globalBase j = none := by
  induction l with
  | nil => intro st i0 j hj; simp [decryptLoop] at hj
  | cons c rest ih =>
    intro st i0 j hj
    simp only [decryptLoop, List.mem_append] at hj
    rcases hj with hj | hj
    · simp only [decryptByte, List.mem_cons, List.mem_singleton, List.not_mem_nil,
        or_false] at hj
      rcases hj with rfl | rfl | rfl <;> rfl
    · exact ih _ _ j hj

/-- No instruction of a decryption sequence is a `getelementptr` on a global. -/
theorem decryptSequence_globalBase (cs : Bool) (rand : Nat → Nat) (st : PassState)
    (gv : GlobalVariable) :
    ∀ j ∈ (decryptSequence cs rand st gv).1, globalBase j = none := by
  intro j hj
  rw [decryptSequence_eq] at hj
  simp only [List.cons_append, List.mem_cons, List.mem_append, List.mem_singleton,
    List.not_mem_nil, or_false] at hj
  rcases hj with rfl | hj | rfl | rfl
  · rfl
  · exact decryptLoop_globalBase cs rand st.nextId _ _ _ j hj
  · rfl
  · rfl

/-- Substituting a buffer for an operand that is based on a candidate does
not change the global base of the instruction. -/
theorem globalBase_set (ss : List GlobalVariable) (L : List Instruction) (J : Instruction)
    (m b : Nat) (arg : Value) (gv : GlobalVariable) (harg : J.operands[m]? = some arg)
    (hc : candidateOf ss L arg = some gv) :
    globalBase { J with operands := J.operands.set m (Value.inst b) } = globalBase J := by
  unfold globalBase
  by_cases hop : J.opcode = Opcode.getelementptr
  · simp only [hop, if_true]
    cases hops : J.operands with
    | nil => rfl
    | cons a rest =>
      cases m with
      | zero =>
        rw [hops] at harg
        simp only [List.getElem?_cons_zero, Option.some.injEq] at harg
        subst harg
        cases a with
        | global addr => simp [candidateOf_ne_global] at hc
        | constInt _ _ => rfl
        | inst _ => rfl
        | gepExpr _ _ => rfl
        | castExpr _ => rfl
        | other _ => rfl
      | succ m => rfl
  · simp only [hop, if_false]

theorem RefInv.init (bound : Nat) (I : Instruction) (st : PassState) (h : bound ≤ st.nextId) :
    RefInv bound I 0 { inserted := [], I := I, st := st } :=
  ⟨rfl, rfl, fun _ _ => rfl, by simp, h⟩

/-- One step of the operand loop: operand number `m` is rewritten exactly
when it is a use site with respect to the original function. -/
theorem rewriteUse_step (cs : Bool) (rand : Nat → Nat) (ss : List GlobalVariable)
    (bound : Nat) (origPre bef aft : List Instruction) (I : Instruction) (m : Nat)
    (s : UseState) (hE : Evolved bound origPre bef)
    (hL : ∀ i ∈ origPre ++ I :: aft, i.id < bound) (hinv : RefInv bound I m s) :
    rewriteUse cs rand ss bef aft s m
      = (match siteAt ss (origPre ++ I :: aft) I m with
        | some gv =>
          { inserted := s.inserted ++ (decryptSequence cs rand s.st gv).1
            I := { s.I with operands := s.I.operands.set m (Value.inst s.st.nextId) }
            st := (decryptSequence cs rand s.st gv).2.2 }
        | none => s) ∧
    RefInv bound I (m + 1) (rewriteUse cs rand ss bef aft s m) := by
  obtain ⟨hid, hbase, hops, hnew, hst⟩ := hinv
  have hweak : RefInv bound I (m + 1) s :=
    ⟨hid, hbase, fun j hj => hops j (by omega), hnew, hst⟩
  have hcur : Evolved bound (origPre ++ I :: aft) (bef ++ s.inserted ++ s.I :: aft) := by
    rw [List.append_assoc]
    exact hE.append ((Evolved.of_new s.inserted hnew).append
      (Evolved.keep hid hbase (Evolved.refl bound aft)))
  have hop : s.I.operands[m]? = I.operands[m]? := hops m (le_refl _)
  rw [rewriteUse_eq]
  unfold siteAt
  rw [hop]
  cases harg : I.operands[m]? with
  | none => exact ⟨rfl, hweak⟩
  | some arg =>
    simp only
    rw [candidateOf_evolved ss hcur hL]
    cases hc : candidateOf ss (origPre ++ I :: aft) arg with
    | none => exact ⟨rfl, hweak⟩
    | some gv =>
      refine ⟨rfl, hid, ?_, ?_, ?_, ?_⟩
      · rw [← hbase]
        exact globalBase_set ss _ s.I m _ arg gv (hop.trans harg) hc
      · intro j hj
        show (s.I.operands.set m (Value.inst s.st.nextId))[j]? = I.operands[j]?
        rw [List.getElem?_set_ne (by omega)]
        exact hops j (by omega)
      · intro x hx
        rcases List.mem_append.1 hx with hx | hx
        · exact hnew x hx
        · exact ⟨le_trans hst (decryptSequence_mem cs rand s.st gv x hx).2,
            decryptSequence_globalBase cs rand s.st gv x hx⟩
      · exact le_trans hst (decryptSequence_nextId cs rand s.st gv)

/-- The operand loop from operand number `m` on, over `len` operands. -/
theorem foldl_rewriteUse_eq (cs : Bool) (rand : Nat → Nat) (ss : List GlobalVariable)
    (bound : Nat) (origPre bef aft : List Instruction) (I : Instruction)
    (hE : Evolved bound origPre bef) (hL : ∀ i ∈ origPre ++ I :: aft, i.id < bound)
    (len : Nat) :
    ∀ (m : Nat) (s : UseState), RefInv bound I m s →
      (List.range' m len).foldl (rewriteUse cs rand ss bef aft) s
        = { inserted := s.inserted ++
              (siteStates cs rand s.st ((List.range' m len).filterMap
                (fun k => (siteAt ss (origPre ++ I :: aft) I k).map (fun gv => (k, gv))))).flatMap
                (fun x => (decryptSequence cs rand x.2.2 x.2.1).1)
            I :=
              { id := s.I.id, opcode := s.I.opcode
                operands := substituted (siteStates cs rand s.st ((List.range' m len).filterMap
                  (fun k => (siteAt ss (origPre ++ I :: aft) I k).map (fun gv => (k, gv)))))
                  s.I.operands
                isVolatile := s.I.isVolatile }
            st := siteEnd cs rand s.st ((List.range' m len).filterMap
                (fun k => (siteAt ss (origPre ++ I :: aft) I k).map (fun gv => (k, gv)))) } := by
  induction len with
  | zero =>
    intro m s _
    simp [siteStates, substituted, siteEnd]
  | succ len ih =>
    intro m s hinv
    obtain ⟨hstep, hinv'⟩ := rewriteUse_step cs rand ss bound origPre bef aft I m s hE hL hinv
    rw [List.range'_succ, List.foldl_cons, ih (m + 1) _ hinv', hstep]
    cases hsite : siteAt ss (origPre ++ I :: aft) I m with
    | none => simp [List.filterMap_cons, hsite]
    | some gv =>
      simp [List.filterMap_cons, hsite, siteStates, substituted, siteEnd, List.flatMap_cons]

/-- The operand loop of the pass does what `rewritten` describes from the
original function. -/
theorem operandLoop_eq_rewritten (cs : Bool) (rand : Nat → Nat) (ss : List GlobalVariable)
    (bound : Nat) (origPre bef aft : List Instruction) (I : Instruction) (st : PassState)
    (hE : Evolved bound origPre bef) (hL : ∀ i ∈ origPre ++ I :: aft, i.id < bound)
    (hst : bound ≤ st.nextId) :
    operandLoop cs rand ss bef aft st I = rewritten cs rand ss (origPre ++ I :: aft) st I := by
  unfold operandLoop
  rw [List.range_eq_range', foldl_rewriteUse_eq cs rand ss bound origPre bef aft I hE hL _ 0 _
    (RefInv.init bound I st hst)]
  simp only [rewritten, useSites, List.range_eq_range', List.nil_append]

end StringObfuscation

namespace StringObfuscation

theorem foldl_rewriteUse_refInv (cs : Bool) (rand : Nat → Nat) (ss : List GlobalVariable)
    (bound : Nat) (origPre bef aft : List Instruction) (I : Instruction)
    (hE : Evolved bound origPre bef) (hL : ∀ i ∈ origPre ++ I :: aft, i.id < bound)
    (len : Nat) :
    ∀ (m : Nat) (s : UseState), RefInv bound I m s →
      RefInv bound I (m + len) ((List.range' m len).foldl (rewriteUse cs rand ss bef aft) s) := by
  induction len with
  | zero => intro m s h; exact h
  | succ len ih =>
    intro m s hinv
    have h := ih (m + 1) _ (rewriteUse_step cs rand ss bound origPre bef aft I m s hE hL hinv).2
    rw [List.range'_succ, List.foldl_cons]
    have e : m + (len + 1) = m + 1 + len := by omega
    rw [e]
    exact h

/-- What the operand loop leaves: the instruction keeps its identity and its
global base, and what was inserted is new and no `getelementptr` on a global. -/
theorem operandLoop_refInv (cs : Bool) (rand : Nat → Nat) (ss : List GlobalVariable)
    (bound : Nat) (origPre bef aft : List Instruction) (I : Instruction) (st : PassState)
    (hE : Evolved bound origPre bef) (hL : ∀ i ∈ origPre ++ I :: aft, i.id < bound)
    (hst : bound ≤ st.nextId) :
    RefInv bound I (0 + I.operands.length) (operandLoop cs rand ss bef aft st I) := by
  unfold operandLoop
  rw [List.range_eq_range']
  exact foldl_rewriteUse_refInv cs rand ss bound origPre bef aft I hE hL _ 0 _
    (RefInv.init bound I st hst)

/-- The instruction loop of the pass computes what the loop described from
the original function computes. -/
theorem instLoop_ref (cs : Bool) (rand : Nat → Nat) (ss : List GlobalVariable) (bound : Nat)
    (before after : List Instruction) (insts : List Instruction) :
    ∀ (st : PassState) (done origPre : List Instruction),
      Evolved bound origPre (before ++ done) →
      (∀ i ∈ origPre ++ insts ++ after, i.id < bound) → bound ≤ st.nextId →
      instLoop cs rand ss before after st done insts
        = (done ++ (Ref.instLoop cs rand ss (origPre ++ insts ++ after) st insts).1,
           (Ref.instLoop cs rand ss (origPre ++ insts ++ after) st insts).2) ∧
      Evolved bound (origPre ++ insts)
        (before ++ done ++ (Ref.instLoop cs rand ss (origPre ++ insts ++ after) st insts).1) ∧
      bound ≤ (Ref.instLoop cs rand ss (origPre ++ insts ++ after) st insts).2.nextId := by
  induction insts with
  | nil =>
    intro st done origPre hE _ hst
    refine ⟨by simp [instLoop, Ref.instLoop], ?_, hst⟩
    simpa [Ref.instLoop] using hE
  | cons I rest ih =>
    intro st done origPre hE hL hst
    have hLeq : origPre ++ (I :: rest) ++ after = origPre ++ I :: (rest ++ after) := by simp
    have hL' : ∀ i ∈ origPre ++ I :: (rest ++ after), i.id < bound := by
      rw [← hLeq]; exact hL
    have hop := operandLoop_eq_rewritten cs rand ss bound origPre (before ++ done)
      (rest ++ after) I st hE hL' hst
    have hinv := operandLoop_refInv cs rand ss bound origPre (before ++ done)
      (rest ++ after) I st hE hL' hst
    rw [hop] at hinv
    obtain ⟨hid, hbase, _, hnew, hst'⟩ := hinv
    have hL2 : origPre ++ [I] ++ rest ++ after = origPre ++ I :: (rest ++ after) := by simp
    have hE' : Evolved bound (origPre ++ [I])
        (before ++ (done ++ (rewritten cs rand ss (origPre ++ I :: (rest ++ after)) st I).inserted
          ++ [(rewritten cs rand ss (origPre ++ I :: (rest ++ after)) st I).I])) := by
      have := (hE.append (Evolved.of_new _ hnew)).append
        (Evolved.keep hid hbase Evolved.nil)
      simpa [List.append_assoc] using this
    obtain ⟨h1, h2, h3⟩ := ih (rewritten cs rand ss (origPre ++ I :: (rest ++ after)) st I).st
      (done ++ (rewritten cs rand ss (origPre ++ I :: (rest ++ after)) st I).inserted
        ++ [(rewritten cs rand ss (origPre ++ I :: (rest ++ after)) st I).I])
      (origPre ++ [I]) hE' (by rw [hL2]; exact hL') hst'
    rw [hL2] at h1 h2 h3
    rw [hLeq]
    refine ⟨?_, ?_, ?_⟩
    · show instLoop cs rand ss before after
          (operandLoop cs rand ss (before ++ done) (rest ++ after) st I).st
          (done ++ (operandLoop cs rand ss (before ++ done) (rest ++ after) st I).inserted
            ++ [(operandLoop cs rand ss (before ++ done) (rest ++ after) st I).I]) rest = _
      rw [hop, h1]
      simp only [Ref.instLoop, List.append_assoc, List.singleton_append]
    · have : origPre ++ I :: rest = origPre ++ [I] ++ rest := by simp
      rw [this]
      simpa [Ref.instLoop, List.append_assoc] using h2
    · simpa [Ref.instLoop] using h3

/-- The block loop of the pass computes what the loop described from the
original function computes. -/
theorem blockLoop_ref (cs : Bool) (rand : Nat → Nat) (ss : List GlobalVariable) (bound : Nat)
    (Bs : List BasicBlock) :
    ∀ (st : PassState) (done : List BasicBlock) (origDone : List Instruction),
      Evolved bound origDone (done.flatMap fun b => b.insts) →
      (∀ i ∈ origDone ++ Bs.flatMap (fun b => b.insts), i.id < bound) → bound ≤ st.nextId →
      blockLoop cs rand ss st done Bs
        = (done ++ (Ref.blockLoop cs rand ss
              (origDone ++ Bs.flatMap (fun b => b.insts)) st Bs).1,
           (Ref.blockLoop cs rand ss (origDone ++ Bs.flatMap (fun b => b.insts)) st Bs).2) ∧
      bound ≤ (Ref.blockLoop cs rand ss
        (origDone ++ Bs.flatMap (fun b => b.insts)) st Bs).2.nextId := by
  induction Bs with
  | nil => intro st done origDone _ _ hst; exact ⟨by simp [blockLoop, Ref.blockLoop], hst⟩
  | cons B rest ih =>
    intro st done origDone hE hL hst
    have hLeq : origDone ++ (B :: rest).flatMap (fun b => b.insts)
        = origDone ++ B.insts ++ rest.flatMap (fun b => b.insts) := by
      simp [List.flatMap_cons]
    rw [hLeq] at hL ⊢
    obtain ⟨h1, h2, h3⟩ := instLoop_ref cs rand ss bound (done.flatMap fun b => b.insts)
      (rest.flatMap fun b => b.insts) B.insts st [] origDone (by simpa using hE) hL hst
    have hE' : Evolved bound (origDone ++ B.insts)
        ((done ++ [({ insts := (Ref.instLoop cs rand ss
          (origDone ++ B.insts ++ rest.flatMap (fun b => b.insts)) st B.insts).1 }
            : BasicBlock)]).flatMap
            fun b => b.insts) := by
      simpa [List.flatMap_append] using h2
    obtain ⟨h4, h5⟩ := ih (Ref.instLoop cs rand ss
        (origDone ++ B.insts ++ rest.flatMap (fun b => b.insts)) st B.insts).2
      (done ++ [{ insts := (Ref.instLoop cs rand ss
        (origDone ++ B.insts ++ rest.flatMap (fun b => b.insts)) st B.insts).1 }])
      (origDone ++ B.insts) hE' hL h3
    refine ⟨?_, ?_⟩
    · show blockLoop cs rand ss
          (instLoop cs rand ss (done.flatMap fun b => b.insts) (rest.flatMap fun b => b.insts)
            st [] B.insts).2
          (done ++ [{ insts := (instLoop cs rand ss (done.flatMap fun b => b.insts)
            (rest.flatMap fun b => b.insts) st [] B.insts).1 }]) rest = _
      rw [h1]
      simp only [List.nil_append]
      rw [h4]
      simp only [Ref.blockLoop, List.append_assoc, List.singleton_append]
    · simpa [Ref.blockLoop] using h5

theorem blockLoop_ref_function (cs : Bool) (rand : Nat → Nat) (ss : List GlobalVariable)
    (bound : Nat) (F : Function) (st : PassState)
    (hL : ∀ i ∈ F.allInsts, i.id < bound) (hst : bound ≤ st.nextId) :
    blockLoop cs rand ss st [] F.blocks
      = Ref.blockLoop cs rand ss F.allInsts st F.blocks ∧
    bound ≤ (Ref.blockLoop cs rand ss F.allInsts st F.blocks).2.nextId := by
  have h := blockLoop_ref cs rand ss bound F.blocks st [] [] Evolved.nil
    (by simpa [Function.allInsts] using hL) hst
  simpa [Function.allInsts] using h

/-- The function loop of the pass computes what the loop described from the
original module computes. -/
theorem functionLoop_ref (cs : Bool) (rand : Nat → Nat) (ss : List GlobalVariable) (bound : Nat)
    (Fs : List Function) :
    ∀ st : PassState, (∀ F ∈ Fs, ∀ i ∈ F.allInsts, i.id < bound) → bound ≤ st.nextId →
      functionLoop cs rand ss st Fs = Ref.functionLoop cs rand ss st Fs := by
  induction Fs with
  | nil => intro st _ _; rfl
  | cons F rest ih =>
    intro st hL hst
    obtain ⟨h1, h2⟩ := blockLoop_ref_function cs rand ss bound F st
      (hL F (List.mem_cons_self _ _)) hst
    simp only [functionLoop, Ref.functionLoop, h1]
    rw [ih _ (fun G hG => hL G (List.mem_cons_of_mem _ hG)) h2]

theorem allInsts_lt_freshId {M : Module} {F : Function} (hF : F ∈ M.functions)
    {i : Instruction} (hi : i ∈ F.allInsts) : i.id < M.freshId := by
  have hmem : i ∈ M.allInsts := by
    simp only [Module.allInsts, List.mem_flatMap]
    exact ⟨F, hF, hi⟩
  exact lt_of_lt_of_le (lt_idSup (List.mem_map_of_mem _ hmem)) (le_max_right _ _)

/-- The functions the pass leaves behind are those computed by the loops
described from the original module. -/
theorem runOnModule_ref (cs : Bool) (rand : Nat → Nat) (calls : Nat) (self : Pass) (M : Module) :
    (runOnModule cs rand calls self M).module.functions
      = (Ref.functionLoop cs rand (discover self.staticStrings M.globals)
          { randCalls := calls, nextId := M.freshId } M.functions).1 := by
  show (functionLoop cs rand _ _ M.functions).1 = _
  rw [functionLoop_ref cs rand _ M.freshId M.functions _
    (fun F hF i hi => allInsts_lt_freshId hF hi) (le_refl _)]

end StringObfuscation

/-! ## Use sites of one instruction -/

namespace StringObfuscation

theorem decryptSequence_nextId_eq (cs : Bool) (rand : Nat → Nat) (st : PassState)
    (gv : GlobalVariable) :
    (decryptSequence cs rand st gv).2.2.nextId
      = st.nextId + (3 * (getAsCString gv.initializer).length + 3) := by
  simp only [decryptSequence, decryptLoop_state]
  omega

theorem decryptLoop_allocas (cs : Bool) (rand : Nat → Nat) (buf : Nat) (l : List Nat) :
    ∀ (st : PassState) (i0 : Nat),
      (decryptLoop cs rand buf st i0 l).1.filter (fun i => i.opcode.isAlloca) = [] := by
  induction l with
  | nil => intro st i0; simp [decryptLoop]
  | cons c rest ih =>
    intro st i0
    simp only [decryptLoop, List.filter_append, ih, List.append_nil]
    rfl

/-- A decryption sequence starts with its buffer, which is its only stack
allocation and has the first unused identity. -/
theorem decryptSequence_buffer (cs : Bool) (rand : Nat → Nat) (st : PassState)
    (gv : GlobalVariable) :
    ∃ buf : Instruction,
      (decryptSequence cs rand st gv).1.head? = some buf ∧ buf.id = st.nextId ∧
      buf.opcode = Opcode.alloca 8 ∧
      (decryptSequence cs rand st gv).1.filter (fun i => i.opcode.isAlloca) = [buf] := by
  refine ⟨{ id := st.nextId, opcode := Opcode.alloca 8
            operands := [getInt32 ((getAsCString gv.initializer).length + 1)]
            isVolatile := false }, ?_, rfl, rfl, ?_⟩
  · rw [decryptSequence_eq]; rfl
  · rw [decryptSequence_eq, List.cons_append, List.filter_cons, List.filter_append,
      decryptLoop_allocas]
    rfl

theorem siteStates_map (cs : Bool) (rand : Nat → Nat) (sites : List (Nat × GlobalVariable)) :
    ∀ st : PassState, (siteStates cs rand st sites).map (fun x => (x.1, x.2.1)) = sites := by
  induction sites with
  | nil => intro st; rfl
  | cons s rest ih => intro st; simp only [siteStates, List.map_cons, ih]

theorem siteStates_length (cs : Bool) (rand : Nat → Nat) (sites : List (Nat × GlobalVariable))
    (st : PassState) : (siteStates cs rand st sites).length = sites.length := by
  have := congrArg List.length (siteStates_map cs rand sites st)
  simpa using this

theorem siteEnd_nextId (cs : Bool) (rand : Nat → Nat) (sites : List (Nat × GlobalVariable)) :
    ∀ st : PassState, st.nextId ≤ (siteEnd cs rand st sites).nextId := by
  induction sites with
  | nil => intro st; exact le_refl _
  | cons s rest ih =>
    intro st
    exact le_trans (decryptSequence_nextId cs rand st s.2) (ih _)

theorem range_glue (a b c : Nat) (h1 : a ≤ b) (h2 : b ≤ c) :
    List.range' a (b - a) ++ List.range' b (c - b) = List.range' a (c - a) := by
  have e : List.range' b (c - b) = List.range' (a + (b - a)) (c - b) := by
    congr 1; omega
  rw [e, List.range'_append_1]
  congr 1; omega

/-- The identities of the instructions inserted for the use sites of one
instruction are consecutive, starting at the first unused identity. -/
theorem siteStates_ids (cs : Bool) (rand : Nat → Nat) (sites : List (Nat × GlobalVariable)) :
    ∀ st : PassState,
      ((siteStates cs rand st sites).flatMap
          (fun x => (decryptSequence cs rand x.2.2 x.2.1).1)).map (fun i => i.id)
        = List.range' st.nextId ((siteEnd cs rand st sites).nextId - st.nextId) := by
  induction sites with
  | nil => intro st; simp [siteStates, siteEnd]
  | cons s rest ih =>
    intro st
    simp only [siteStates, siteEnd, List.flatMap_cons, List.map_append, ih,
      decryptSequence_ids]
    have h1 := decryptSequence_nextId_eq cs rand st s.2
    have h2 := siteEnd_nextId cs rand rest (decryptSequence cs rand st s.2).2.2
    have e : 3 * (getAsCString s.2.initializer).length + 3
        = (decryptSequence cs rand st s.2).2.2.nextId - st.nextId := by omega
    rw [e]
    exact range_glue _ _ _ (by omega) h2

/-- One buffer is inserted for each use site of an instruction. -/
theorem siteStates_allocas (cs : Bool) (rand : Nat → Nat)
    (sites : List (Nat × GlobalVariable)) :
    ∀ st : PassState,
      (((siteStates cs rand st sites).flatMap
          (fun x => (decryptSequence cs rand x.2.2 x.2.1).1)).filter
            (fun i => i.opcode.isAlloca)).length = sites.length := by
  induction sites with
  | nil => intro st; simp [siteStates]
  | cons s rest ih =>
    intro st
    obtain ⟨buf, _, _, _, h⟩ := decryptSequence_buffer cs rand st s.2
    simp only [siteStates, List.flatMap_cons, List.filter_append, List.length_append, ih, h,
      List.length_cons, List.length_nil]
    omega

theorem substituted_length (sts : List (Nat × GlobalVariable × PassState)) :
    ∀ ops : List Value, (substituted sts ops).length = ops.length := by
  induction sts with
  | nil => intro ops; rfl
  | cons x rest ih => intro ops; simp only [substituted, ih, List.length_set]

/-- An operand slot that is no use site is not touched by the substitution. -/
theorem substituted_getElem?_of_not_mem (sts : List (Nat × GlobalVariable × PassState))
    (k : Nat) : ∀ ops : List Value, (∀ x ∈ sts, x.1 ≠ k) →
      (substituted sts ops)[k]? = ops[k]? := by
  induction sts with
  | nil => intro ops _; rfl
  | cons x rest ih =>
    intro ops h
    simp only [substituted]
    rw [ih _ (fun y hy => h y (List.mem_cons_of_mem _ hy)),
      List.getElem?_set_ne (h x (List.mem_cons_self _ _))]

/-- After the substitution the operand slot of every use site holds the
buffer of that site. -/
theorem substituted_sites (cs : Bool) (rand : Nat → Nat)
    (sites : List (Nat × GlobalVariable)) :
    ∀ (st : PassState) (ops : List Value), (sites.map Prod.fst).Nodup →
      (∀ s ∈ sites, s.1 < ops.length) →
      List.Forall₂ (fun site x => x.1 = site.1 ∧ x.2.1 = site.2 ∧ st.nextId ≤ x.2.2.nextId ∧
          (substituted (siteStates cs rand st sites) ops)[site.1]?
            = some (Value.inst x.2.2.nextId))
        sites (siteStates cs rand st sites) := by
  induction sites with
  | nil => intro st ops _ _; exact List.Forall₂.nil
  | cons s rest ih =>
    intro st ops hnd hlt
    obtain ⟨k, gv⟩ := s
    simp only [List.map_cons, List.nodup_cons] at hnd
    have hk : k < ops.length := hlt (k, gv) (List.mem_cons_self _ _)
    have hrest := ih (decryptSequence cs rand st gv).2.2 (ops.set k (Value.inst st.nextId))
      hnd.2 (fun s hs => by rw [List.length_set]; exact hlt s (List.mem_cons_of_mem _ hs))
    refine List.Forall₂.cons ⟨rfl, rfl, le_refl _, ?_⟩ ?_
    · show (substituted (siteStates cs rand (decryptSequence cs rand st gv).2.2 rest)
          (ops.set k (Value.inst st.nextId)))[k]? = _
      rw [substituted_getElem?_of_not_mem]
      · simp [List.getElem?_set, hk]
      · intro x hx hxk
        apply hnd.1
        have hmem : (x.1, x.2.1) ∈ rest := by
          have := List.mem_map_of_mem (fun x => (x.1, x.2.1)) hx
          rwa [siteStates_map] at this
        rw [← hxk]
        exact List.mem_map_of_mem Prod.fst hmem
    · refine List.Forall₂.imp ?_ hrest
      intro site x ⟨h1, h2, h3, h4⟩
      exact ⟨h1, h2, le_trans (decryptSequence_nextId cs rand st gv) h3, h4⟩

theorem filterMap_fst {α : Type} (f : Nat → Option α) (l : List Nat) :
    (l.filterMap (fun k => (f k).map (fun gv => (k, gv)))).map Prod.fst
      = l.filter (fun k => (f k).isSome) := by
  induction l with
  | nil => rfl
  | cons a rest ih =>
    cases h : f a with
    | none => simp [List.filterMap_cons, h, ih]
    | some v => simp [List.filterMap_cons, h, ih]

/-- No operand index occurs twice among the use sites of an instruction. -/
theorem useSites_nodup (ss : List GlobalVariable) (L : List Instruction) (I : Instruction) :
    ((useSites ss L I).map Prod.fst).Nodup := by
  unfold useSites
  rw [filterMap_fst]
  exact (List.nodup_range _).filter _

theorem useSites_mem (ss : List GlobalVariable) (L : List Instruction) (I : Instruction)
    (s : Nat × GlobalVariable) (hs : s ∈ useSites ss L I) :
    s.1 < I.operands.length ∧ siteAt ss L I s.1 = some s.2 := by
  unfold useSites at hs
  rw [List.mem_filterMap] at hs
  obtain ⟨k, hk, hks⟩ := hs
  cases hsite : siteAt ss L I k with
  | none => rw [hsite] at hks; simp at hks
  | some gv =>
    rw [hsite] at hks
    simp only [Option.map_some', Option.some.injEq] at hks
    subst hks
    exact ⟨List.mem_range.1 hk, hsite⟩

end StringObfuscation

/-! ## The loops described from the original module: what they insert -/

namespace StringObfuscation

theorem rewritten_new (cs : Bool) (rand : Nat → Nat) (ss : List GlobalVariable)
    (L : List Instruction) (st : PassState) (I : Instruction) :
    ∀ x ∈ (rewritten cs rand ss L st I).inserted, st.nextId ≤ x.id := by
  intro x hx
  have h := List.mem_map_of_mem (fun i => i.id) hx
  have e : (rewritten cs rand ss L st I).inserted.map (fun i => i.id)
      = List.range' st.nextId ((siteEnd cs rand st (useSites ss L I)).nextId - st.nextId) :=
    siteStates_ids cs rand (useSites ss L I) st
  rw [e, List.mem_range'_1] at h
  exact h.1

theorem ref_instLoop_nextId (cs : Bool) (rand : Nat → Nat) (ss : List GlobalVariable)
    (L : List Instruction) (insts : List Instruction) :
    ∀ st : PassState, st.nextId ≤ (Ref.instLoop cs rand ss L st insts).2.nextId := by
  induction insts with
  | nil => intro st; exact le_refl _
  | cons I rest ih =>
    intro st
    exact le_trans (siteEnd_nextId cs rand (useSites ss L I) st)
      (ih (rewritten cs rand ss L st I).st)

/-- What the instruction loop inserts: the new identities are consecutive,
and there is one buffer for each use site. -/
theorem ref_instLoop_new (cs : Bool) (rand : Nat → Nat) (ss : List GlobalVariable)
    (L : List Instruction) (bound : Nat) (insts : List Instruction) :
    ∀ st : PassState, (∀ i ∈ insts, i.id < bound) → bound ≤ st.nextId →
      ((Ref.instLoop cs rand ss L st insts).1.filter
          (fun i => decide (bound ≤ i.id))).map (fun i => i.id)
        = List.range' st.nextId ((Ref.instLoop cs rand ss L st insts).2.nextId - st.nextId) ∧
      (insertedBuffers bound (Ref.instLoop cs rand ss L st insts).1).length
        = (insts.map (fun I => (useSites ss L I).length)).sum := by
  induction insts with
  | nil => intro st _ _; simp [Ref.instLoop, insertedBuffers]
  | cons I rest ih =>
    intro st hL hst
    have hnew := rewritten_new cs rand ss L st I
    have hmono : st.nextId ≤ (rewritten cs rand ss L st I).st.nextId :=
      siteEnd_nextId cs rand (useSites ss L I) st
    have hI : ¬ bound ≤ (rewritten cs rand ss L st I).I.id := by
      have := hL I (List.mem_cons_self _ _)
      show ¬ bound ≤ I.id
      omega
    obtain ⟨h1, h2⟩ := ih (rewritten cs rand ss L st I).st
      (fun i hi => hL i (List.mem_cons_of_mem _ hi)) (le_trans hst hmono)
    have hout : Ref.instLoop cs rand ss L st (I :: rest)
        = ((rewritten cs rand ss L st I).inserted ++ (rewritten cs rand ss L st I).I ::
            (Ref.instLoop cs rand ss L (rewritten cs rand ss L st I).st rest).1,
           (Ref.instLoop cs rand ss L (rewritten cs rand ss L st I).st rest).2) := rfl
    rw [hout]
    refine ⟨?_, ?_⟩
    · have hf : (rewritten cs rand ss L st I).inserted.filter (fun i => decide (bound ≤ i.id))
          = (rewritten cs rand ss L st I).inserted := by
        rw [List.filter_eq_self]
        intro x hx
        exact decide_eq_true (le_trans hst (hnew x hx))
      rw [List.filter_append, hf, List.filter_cons_of_neg (by simpa using hI), List.map_append,
        h1]
      have e : (rewritten cs rand ss L st I).inserted.map (fun i => i.id)
          = List.range' st.nextId ((rewritten cs rand ss L st I).st.nextId - st.nextId) :=
        siteStates_ids cs rand (useSites ss L I) st
      rw [e]
      exact range_glue _ _ _ hmono (ref_instLoop_nextId cs rand ss L rest _)
    · unfold insertedBuffers at h2 ⊢
      have hf : ((rewritten cs rand ss L st I).inserted.filter
          (fun i => decide (bound ≤ i.id) && i.opcode.isAlloca))
          = (rewritten cs rand ss L st I).inserted.filter (fun i => i.opcode.isAlloca) := by
        apply List.filter_congr
        intro x hx
        simp [le_trans hst (hnew x hx)]
      rw [List.filter_append, hf, List.filter_cons_of_neg (by simp [hI]), List.length_append,
        h2, List.map_cons, List.sum_cons]
      have e : ((rewritten cs rand ss L st I).inserted.filter
          (fun i => i.opcode.isAlloca)).length = (useSites ss L I).length :=
        siteStates_allocas cs rand (useSites ss L I) st
      rw [e]

/-- The instruction loop keeps the instructions of the block, in order, and
changes only operand slots that are use sites. -/
theorem ref_instLoop_frame (cs : Bool) (rand : Nat → Nat) (ss : List GlobalVariable)
    (L : List Instruction) (bound : Nat) (insts : List Instruction) :
    ∀ st : PassState, (∀ i ∈ insts, i.id < bound) → bound ≤ st.nextId →
      List.Forall₂ (fun I I' => I'.id = I.id ∧ I'.opcode = I.opcode ∧
          I'.operands.length = I.operands.length ∧
          ∀ k : Nat, siteAt ss L I k = none → I'.operands[k]? = I.operands[k]?)
        insts
        ((Ref.instLoop cs rand ss L st insts).1.filter (fun i => decide (i.id < bound))) := by
  induction insts with
  | nil => intro st _ _; exact List.Forall₂.nil
  | cons I rest ih =>
    intro st hL hst
    have hnew := rewritten_new cs rand ss L st I
    have hmono : st.nextId ≤ (rewritten cs rand ss L st I).st.nextId :=
      siteEnd_nextId cs rand (useSites ss L I) st
    have hI : (rewritten cs rand ss L st I).I.id < bound := hL I (List.mem_cons_self _ _)
    have hrest := ih (rewritten cs rand ss L st I).st
      (fun i hi => hL i (List.mem_cons_of_mem _ hi)) (le_trans hst hmono)
    have hout : Ref.instLoop cs rand ss L st (I :: rest)
        = ((rewritten cs rand ss L st I).inserted ++ (rewritten cs rand ss L st I).I ::
            (Ref.instLoop cs rand ss L (rewritten cs rand ss L st I).st rest).1,
           (Ref.instLoop cs rand ss L (rewritten cs rand ss L st I).st rest).2) := rfl
    have hf : (rewritten cs rand ss L st I).inserted.filter (fun i => decide (i.id < bound))
        = [] := by
      rw [List.filter_eq_nil_iff]
      intro x hx
      have := le_trans hst (hnew x hx)
      simp only [decide_eq_true_eq]
      omega
    rw [hout, List.filter_append, hf, List.nil_append,
      List.filter_cons_of_pos (by simpa using hI)]
    refine List.Forall₂.cons ⟨rfl, rfl, ?_, ?_⟩ hrest
    · exact substituted_length _ _
    · intro k hk
      apply substituted_getElem?_of_not_mem
      intro x hx hxk
      have hmem : (x.1, x.2.1) ∈ useSites ss L I := by
        have := List.mem_map_of_mem (fun x => (x.1, x.2.1)) hx
        rwa [siteStates_map] at this
      have := (useSites_mem ss L I _ hmem).2
      rw [hxk, hk] at this
      cases this

/-- The output of the instruction loop, group by group: for each instruction
of the block, the decryption sequences of its use sites, then the instruction,
in which the operand of each use site is the buffer of that site. -/
theorem ref_instLoop_groups (cs : Bool) (rand : Nat → Nat) (ss : List GlobalVariable)
    (L : List Instruction) (bound : Nat) (insts : List Instruction) :
    ∀ st : PassState, bound ≤ st.nextId →
      ∃ groups : List (List (List Instruction) × Instruction),
        (Ref.instLoop cs rand ss L st insts).1
          = groups.flatMap (fun g => g.1.flatten ++ [g.2]) ∧
        List.Forall₂ (fun I g => g.2.id = I.id ∧
          List.Forall₂ (fun site seq =>
            ∃ (st' : PassState) (buf : Instruction), bound ≤ st'.nextId ∧
              seq = (decryptSequence cs rand st' site.2).1 ∧ seq.head? = some buf ∧
              buf.opcode = Opcode.alloca 8 ∧
              seq.filter (fun i => i.opcode.isAlloca) = [buf] ∧
              g.2.operands[site.1]? = some (Value.inst buf.id))
            (useSites ss L I) g.1)
          insts groups := by
  induction insts with
  | nil => intro st _; exact ⟨[], rfl, List.Forall₂.nil⟩
  | cons I rest ih =>
    intro st hst
    have hmono : st.nextId ≤ (rewritten cs rand ss L st I).st.nextId :=
      siteEnd_nextId cs rand (useSites ss L I) st
    obtain ⟨groups, hout, hall⟩ := ih (rewritten cs rand ss L st I).st (le_trans hst hmono)
    refine ⟨((siteStates cs rand st (useSites ss L I)).map
        (fun x => (decryptSequence cs rand x.2.2 x.2.1).1), (rewritten cs rand ss L st I).I)
        :: groups, ?_, List.Forall₂.cons ⟨rfl, ?_⟩ hall⟩
    · show (rewritten cs rand ss L st I).inserted ++ (rewritten cs rand ss L st I).I ::
          (Ref.instLoop cs rand ss L (rewritten cs rand ss L st I).st rest).1 = _
      rw [hout, List.flatMap_cons]
      simp only [List.append_assoc, List.singleton_append]
      rfl
    · rw [List.forall₂_map_right_iff]
      have hs := substituted_sites cs rand (useSites ss L I) st I.operands
        (useSites_nodup ss L I) (fun s hs => (useSites_mem ss L I s hs).1)
      refine List.Forall₂.imp ?_ hs
      intro site x ⟨_, h2, h3, h4⟩
      obtain ⟨buf, hb1, hb2, hb3, hb4⟩ := decryptSequence_buffer cs rand x.2.2 site.2
      refine ⟨x.2.2, buf, le_trans hst h3, by rw [h2], by rw [h2]; exact hb1, hb3,
        by rw [h2]; exact hb4, ?_⟩
      rw [hb2]
      exact h4

end StringObfuscation

/-! ## From the instruction loop to the module -/

namespace StringObfuscation

theorem ref_blockLoop_nextId (cs : Bool) (rand : Nat → Nat) (ss : List GlobalVariable)
    (L : List Instruction) (Bs : List BasicBlock) :
    ∀ st : PassState, st.nextId ≤ (Ref.blockLoop cs rand ss L st Bs).2.nextId := by
  induction Bs with
  | nil => intro st; exact le_refl _
  | cons B rest ih =>
    intro st
    exact le_trans (ref_instLoop_nextId cs rand ss L B.insts st)
      (ih (Ref.instLoop cs rand ss L st B.insts).2)

/-- A property of every block as the instruction loop leaves it holds block
by block of the output of the block loop. -/
theorem ref_blockwise (cs : Bool) (rand : Nat → Nat) (ss : List GlobalVariable)
    (L : List Instruction) (bound : Nat) (Q : BasicBlock → BasicBlock → Prop)
    (Bs : List BasicBlock)
    (hQ : ∀ B ∈ Bs, ∀ st : PassState, bound ≤ st.nextId →
      Q B { insts := (Ref.instLoop cs rand ss L st B.insts).1 }) :
    ∀ st : PassState, bound ≤ st.nextId →
      List.Forall₂ Q Bs (Ref.blockLoop cs rand ss L st Bs).1 := by
  induction Bs with
  | nil => intro st _; exact List.Forall₂.nil
  | cons B rest ih =>
    intro st hst
    exact List.Forall₂.cons (hQ B (List.mem_cons_self _ _) st hst)
      (ih (fun B' hB' => hQ B' (List.mem_cons_of_mem _ hB')) _
        (le_trans hst (ref_instLoop_nextId cs rand ss L B.insts st)))

/-- A property of every block as the instruction loop leaves it holds
function by function and block by block of the output of the function loop. -/
theorem ref_functionwise (cs : Bool) (rand : Nat → Nat) (ss : List GlobalVariable)
    (bound : Nat) (P : Function → BasicBlock → BasicBlock → Prop) (Fs : List Function)
    (hP : ∀ F ∈ Fs, ∀ B ∈ F.blocks, ∀ st : PassState, bound ≤ st.nextId →
      P F B { insts := (Ref.instLoop cs rand ss F.allInsts st B.insts).1 }) :
    ∀ st : PassState, bound ≤ st.nextId →
      List.Forall₂ (fun F F' => List.Forall₂ (P F) F.blocks F'.blocks) Fs
        (Ref.functionLoop cs rand ss st Fs).1 := by
  induction Fs with
  | nil => intro st _; exact List.Forall₂.nil
  | cons F rest ih =>
    intro st hst
    refine List.Forall₂.cons ?_ (ih (fun F' hF' => hP F' (List.mem_cons_of_mem _ hF')) _
      (le_trans hst (ref_blockLoop_nextId cs rand ss F.allInsts F.blocks st)))
    exact ref_blockwise cs rand ss F.allInsts bound (P F) F.blocks
      (hP F (List.mem_cons_self _ _)) st hst

/-- A property of every block as the instruction loop leaves it holds
function by function and block by block of the output of the pass. -/
theorem runOnModule_functionwise (cs : Bool) (rand : Nat → Nat) (calls : Nat) (self : Pass)
    (M : Module) (P : Function → BasicBlock → BasicBlock → Prop)
    (hP : ∀ F ∈ M.functions, ∀ B ∈ F.blocks, ∀ st : PassState, M.freshId ≤ st.nextId →
      P F B { insts := (Ref.instLoop cs rand (discover self.staticStrings M.globals)
        F.allInsts st B.insts).1 }) :
    Functionwise P M (runOnModule cs rand calls self M).module := by
  unfold Functionwise
  rw [runOnModule_ref]
  exact ref_functionwise cs rand _ M.freshId P M.functions hP _ (le_refl _)

/-- What the block loop inserts. -/
theorem ref_blockLoop_new (cs : Bool) (rand : Nat → Nat) (ss : List GlobalVariable)
    (L : List Instruction) (bound : Nat) (Bs : List BasicBlock) :
    ∀ st : PassState, (∀ i ∈ Bs.flatMap (fun b => b.insts), i.id < bound) →
      bound ≤ st.nextId →
      (((Ref.blockLoop cs rand ss L st Bs).1.flatMap (fun b => b.insts)).filter
          (fun i => decide (bound ≤ i.id))).map (fun i => i.id)
        = List.range' st.nextId ((Ref.blockLoop cs rand ss L st Bs).2.nextId - st.nextId) ∧
      (insertedBuffers bound
          ((Ref.blockLoop cs rand ss L st Bs).1.flatMap (fun b => b.insts))).length
        = ((Bs.flatMap (fun b => b.insts)).map (fun I => (useSites ss L I).length)).sum := by
  induction Bs with
  | nil => intro st _ _; simp [Ref.blockLoop, insertedBuffers]
  | cons B rest ih =>
    intro st hL hst
    rw [List.flatMap_cons] at hL
    have hmono := ref_instLoop_nextId cs rand ss L B.insts st
    obtain ⟨h1, h2⟩ := ref_instLoop_new cs rand ss L bound B.insts st
      (fun i hi => hL i (List.mem_append_left _ hi)) hst
    obtain ⟨h3, h4⟩ := ih (Ref.instLoop cs rand ss L st B.insts).2
      (fun i hi => hL i (List.mem_append_right _ hi)) (le_trans hst hmono)
    have hout : Ref.blockLoop cs rand ss L st (B :: rest)
        = ({ insts := (Ref.instLoop cs rand ss L st B.insts).1 } ::
            (Ref.blockLoop cs rand ss L (Ref.instLoop cs rand ss L st B.insts).2 rest).1,
           (Ref.blockLoop cs rand ss L (Ref.instLoop cs rand ss L st B.insts).2 rest).2) := rfl
    rw [hout]
    refine ⟨?_, ?_⟩
    · rw [List.flatMap_cons, List.filter_append, List.map_append, h1, h3]
      exact range_glue _ _ _ hmono (ref_blockLoop_nextId cs rand ss L rest _)
    · unfold insertedBuffers at h2 h4 ⊢
      rw [List.flatMap_cons, List.filter_append, List.length_append, h2, h4,
        List.flatMap_cons, List.map_append, List.sum_append]

theorem ref_functionLoop_nextId (cs : Bool) (rand : Nat → Nat) (ss : List GlobalVariable)
    (Fs : List Function) :
    ∀ st : PassState, st.nextId ≤ (Ref.functionLoop cs rand ss st Fs).2.nextId := by
  induction Fs with
  | nil => intro st; exact le_refl _
  | cons F rest ih =>
    intro st
    exact le_trans (ref_blockLoop_nextId cs rand ss F.allInsts F.blocks st)
      (ih (Ref.blockLoop cs rand ss F.allInsts st F.blocks).2)

/-- What the function loop inserts. -/
theorem ref_functionLoop_new (cs : Bool) (rand : Nat → Nat) (ss : List GlobalVariable)
    (bound : Nat) (Fs : List Function) :
    ∀ st : PassState, (∀ F ∈ Fs, ∀ i ∈ F.allInsts, i.id < bound) → bound ≤ st.nextId →
      (((Ref.functionLoop cs rand ss st Fs).1.flatMap Function.allInsts).filter
          (fun i => decide (bound ≤ i.id))).map (fun i => i.id)
        = List.range' st.nextId ((Ref.functionLoop cs rand ss st Fs).2.nextId - st.nextId) ∧
      (insertedBuffers bound
          ((Ref.functionLoop cs rand ss st Fs).1.flatMap Function.allInsts)).length
        = (Fs.map (fun F =>
            (F.allInsts.map (fun I => (useSites ss F.allInsts I).length)).sum)).sum := by
  induction Fs with
  | nil => intro st _ _; simp [Ref.functionLoop, insertedBuffers]
  | cons F rest ih =>
    intro st hL hst
    have hmono := ref_blockLoop_nextId cs rand ss F.allInsts F.blocks st
    obtain ⟨h1, h2⟩ := ref_blockLoop_new cs rand ss F.allInsts bound F.blocks st
      (hL F (List.mem_cons_self _ _)) hst
    obtain ⟨h3, h4⟩ := ih (Ref.blockLoop cs rand ss F.allInsts st F.blocks).2
      (fun G hG => hL G (List.mem_cons_of_mem _ hG)) (le_trans hst hmono)
    have hout : Ref.functionLoop cs rand ss st (F :: rest)
        = ({ F with blocks := (Ref.blockLoop cs rand ss F.allInsts st F.blocks).1 } ::
            (Ref.functionLoop cs rand ss
              (Ref.blockLoop cs rand ss F.allInsts st F.blocks).2 rest).1,
           (Ref.functionLoop cs rand ss
              (Ref.blockLoop cs rand ss F.allInsts st F.blocks).2 rest).2) := rfl
    have hall : Function.allInsts
        { F with blocks := (Ref.blockLoop cs rand ss F.allInsts st F.blocks).1 }
        = (Ref.blockLoop cs rand ss F.allInsts st F.blocks).1.flatMap (fun b => b.insts) := rfl
    rw [hout]
    refine ⟨?_, ?_⟩
    · rw [List.flatMap_cons, hall, List.filter_append, List.map_append, h1, h3]
      exact range_glue _ _ _ hmono (ref_functionLoop_nextId cs rand ss rest _)
    · unfold insertedBuffers at h2 h4 ⊢
      rw [List.flatMap_cons, hall, List.filter_append, List.length_append, h2, h4,
        List.map_cons, List.sum_cons]
      rfl

/-- The buffers inserted by the pass: one for each use site of the module,
with pairwise different identities. -/
theorem runOnModule_buffers (cs : Bool) (rand : Nat → Nat) (calls : Nat) (self : Pass)
    (M : Module) :
    (insertedBuffers M.freshId (runOnModule cs rand calls self M).module.allInsts).length
      = useSiteCount (discover self.staticStrings M.globals) M ∧
    ((insertedBuffers M.freshId (runOnModule cs rand calls self M).module.allInsts).map
      (fun i => i.id)).Nodup := by
  have hall : (runOnModule cs rand calls self M).module.allInsts
      = (Ref.functionLoop cs rand (discover self.staticStrings M.globals)
          { randCalls := calls, nextId := M.freshId } M.functions).1.flatMap
            Function.allInsts := by
    show (runOnModule cs rand calls self M).module.functions.flatMap Function.allInsts = _
    rw [runOnModule_ref]
  obtain ⟨h1, h2⟩ := ref_functionLoop_new cs rand (discover self.staticStrings M.globals)
    M.freshId M.functions { randCalls := calls, nextId := M.freshId }
    (fun F hF i hi => allInsts_lt_freshId hF hi) (le_refl _)
  rw [hall]
  refine ⟨h2, ?_⟩
  have hsub : List.Sublist
      ((insertedBuffers M.freshId
        ((Ref.functionLoop cs rand (discover self.staticStrings M.globals)
          { randCalls := calls, nextId := M.freshId } M.functions).1.flatMap
            Function.allInsts)).map (fun i => i.id))
      ((((Ref.functionLoop cs rand (discover self.staticStrings M.globals)
          { randCalls := calls, nextId := M.freshId } M.functions).1.flatMap
            Function.allInsts).filter (fun i => decide (M.freshId ≤ i.id))).map
              (fun i => i.id)) := by
    apply List.Sublist.map
    unfold insertedBuffers
    rw [← List.filter_filter]
    exact List.Sublist.filter _ (List.filter_sublist _)
  refine List.Nodup.sublist hsub ?_
  rw [h1]
  exact List.nodup_range' _ _

end StringObfuscation

/-! ## Per-use-site rewriting and the substitution frame -/

/-- C11. Per-use-site rewriting: for every module, (1) the number of buffers
(stack allocations) the string pass inserts equals the number of use sites,
the pairs of an instruction and an operand index whose operand is an
address-compute expression based on a candidate; (2) the inserted buffers are
pairwise different, so no two use sites share one; (3) every block of the
output is, for each instruction of the original block in order, the decryption
sequences of the use sites of that instruction, one for each use site in
operand order, followed by the instruction itself; each sequence starts with
its buffer, which is its only stack allocation, and the operand of the
instruction at the index of the use site is that buffer. -/
theorem use_site_rewriting (charSigned : Bool) (rand : Nat → Nat) (calls : Nat) (M : Module) :
    (StringObfuscation.insertedBuffers M.freshId
        (StringObfuscation.runOnModule charSigned rand calls StringObfuscation.Pass.new
          M).module.allInsts).length
      = StringObfuscation.useSiteCount
          (StringObfuscation.discover StringObfuscation.Pass.new.staticStrings M.globals) M ∧
    ((StringObfuscation.insertedBuffers M.freshId
        (StringObfuscation.runOnModule charSigned rand calls StringObfuscation.Pass.new
          M).module.allInsts).map (fun i => i.id)).Nodup ∧
    Functionwise
      (fun F B B' =>
        ∃ groups : List (List (List Instruction) × Instruction),
          B'.insts = groups.flatMap (fun g => g.1.flatten ++ [g.2]) ∧
          List.Forall₂ (fun I g => g.2.id = I.id ∧
            List.Forall₂ (fun site seq =>
              ∃ (st : PassState) (buf : Instruction), M.freshId ≤ st.nextId ∧
                seq = (StringObfuscation.decryptSequence charSigned rand st site.2).1 ∧
                seq.head? = some buf ∧ buf.opcode = Opcode.alloca 8 ∧
                seq.filter (fun i => i.opcode.isAlloca) = [buf] ∧
                g.2.operands[site.1]? = some (Value.inst buf.id))
              (StringObfuscation.useSites
                (StringObfuscation.discover StringObfuscation.Pass.new.staticStrings M.globals)
                F.allInsts I)
              g.1)
            B.insts groups)
      M (StringObfuscation.runOnModule charSigned rand calls StringObfuscation.Pass.new
          M).module := by
  obtain ⟨h1, h2⟩ := StringObfuscation.runOnModule_buffers charSigned rand calls
    StringObfuscation.Pass.new M
  refine ⟨h1, h2, ?_⟩
  apply StringObfuscation.runOnModule_functionwise
  intro F _ B _ st hst
  exact StringObfuscation.ref_instLoop_groups charSigned rand _ F.allInsts M.freshId B.insts
    st hst

/-- C11 (example). In the module in which the literal `"hi"` is the base of
two operands of one instruction and of one operand of another, the pass
inserts three buffers. -/
theorem use_site_rewriting_witness :
    (StringObfuscation.insertedBuffers Example.threeUses.freshId
        (StringObfuscation.runOnModule true Example.randFive 0 StringObfuscation.Pass.new
          Example.threeUses).module.allInsts).length = 3 :=
  (use_site_rewriting true Example.randFive 0 Example.threeUses).1.trans (by decide)

/-- C16. In-place substitution frame: for every module, in every block of the
output of the string pass the instructions that existed before the pass are,
in order, the instructions of the original block: each has the identity, the
operation kind and the operand count of the original instruction, and every
operand slot that was not an address-compute expression based on a candidate
holds the original operand. -/
theorem in_place_substitution (charSigned : Bool) (rand : Nat → Nat) (calls : Nat)
    (M : Module) :
    Functionwise
      (fun F B B' =>
        List.Forall₂ (fun I I' =>
          I'.id = I.id ∧ I'.opcode = I.opcode ∧ I'.operands.length = I.operands.length ∧
          ∀ k : Nat,
            StringObfuscation.siteAt
              (StringObfuscation.discover StringObfuscation.Pass.new.staticStrings M.globals)
              F.allInsts I k = none →
            I'.operands[k]? = I.operands[k]?)
          B.insts (preExisting M.freshId B'))
      M (StringObfuscation.runOnModule charSigned rand calls StringObfuscation.Pass.new
          M).module := by
  apply StringObfuscation.runOnModule_functionwise
  intro F hF B hB st hst
  refine StringObfuscation.ref_instLoop_frame charSigned rand _ F.allInsts M.freshId B.insts
    st ?_ hst
  intro i hi
  have hmem : i ∈ F.allInsts := by
    simp only [Function.allInsts, List.mem_flatMap]
    exact ⟨B, hB, hi⟩
  exact StringObfuscation.allInsts_lt_freshId hF hmem

/-- C16 (witness). The module of `"hi"[i]`. -/
theorem in_place_substitution_witness :
    Functionwise
      (fun F B B' =>
        List.Forall₂ (fun I I' =>
          I'.id = I.id ∧ I'.opcode = I.opcode ∧ I'.operands.length = I.operands.length ∧
          ∀ k : Nat,
            StringObfuscation.siteAt
              (StringObfuscation.discover StringObfuscation.Pass.new.staticStrings
                Example.indexedUse.globals)
              F.allInsts I k = none →
            I'.operands[k]? = I.operands[k]?)
          B.insts (preExisting Example.indexedUse.freshId B'))
      Example.indexedUse
      (StringObfuscation.runOnModule true Example.randFive 0 StringObfuscation.Pass.new
          Example.indexedUse).module :=
  in_place_substitution true Example.randFive 0 Example.indexedUse

end CodeObfs
